import Mathlib

/-!
A shallow embedding of the `EDSBlockDeserializer` core of `from-eds.js`:
the deserializer that converts EDS row/cell markup (block encoding:
`div.experience-element` with row divs; table encoding: `experience-element`
tables) into a custom-element tree.

DOM values are modelled by the pure tree `Node`.  `innerHTML` is modelled as
the serialization of a node's children and assigning an HTML string produced
by `innerHTML` back into a fresh element is modelled as copying the children
(text is serialized raw; the development never relies on entity escaping).
JS `Map`/object stores are modelled as association lists with JS `Map.set`
semantics (update-in-place, insert at the end).  The recursive conversion has
no cycle guard in the source, so the embedding takes an explicit fuel
argument and every mutually recursive call consumes one unit.
-/

namespace FromEds

/-- A DOM node: a text node, or an element with a (lower-case) tag name, an
attribute list in document order, and child nodes. -/
inductive Node where
  | text (s : String)
  | elem (tag : String) (attrs : List (String × String)) (children : List Node)

mutual

/-- Boolean structural equality of nodes. -/
def Node.beq : Node → Node → Bool
  | .text a, .text b => a == b
  | .elem t₁ a₁ c₁, .elem t₂ a₂ c₂ => t₁ == t₂ && a₁ == a₂ && Node.beqList c₁ c₂
  | _, _ => false

/-- Boolean structural equality of node lists. -/
def Node.beqList : List Node → List Node → Bool
  | [], [] => true
  | x :: xs, y :: ys => Node.beq x y && Node.beqList xs ys
  | _, _ => false

end

mutual

theorem Node.beq_iff : ∀ a b : Node, Node.beq a b = true ↔ a = b
  | .text a, .text b => by simp [Node.beq]
  | .text _, .elem _ _ _ => by simp [Node.beq]
  | .elem _ _ _, .text _ => by simp [Node.beq]
  | .elem t₁ a₁ c₁, .elem t₂ a₂ c₂ => by
    simp only [Node.beq, Bool.and_eq_true, beq_iff_eq, Node.elem.injEq]
    rw [Node.beqList_iff c₁ c₂]
    tauto

theorem Node.beqList_iff : ∀ as bs : List Node, Node.beqList as bs = true ↔ as = bs
  | [], [] => by simp [Node.beqList]
  | [], _ :: _ => by simp [Node.beqList]
  | _ :: _, [] => by simp [Node.beqList]
  | x :: xs, y :: ys => by
    simp only [Node.beqList, Bool.and_eq_true, List.cons.injEq]
    rw [Node.beq_iff x y, Node.beqList_iff xs ys]

end

instance : DecidableEq Node := fun a b =>
  decidable_of_iff (Node.beq a b = true) (Node.beq_iff a b)

/-- JS string truthiness/whitespace: the whitespace characters relevant to the
inputs (JS `\s` also covers further Unicode space; the sources only produce
these). -/
def isWsChar (c : Char) : Bool :=
  c = ' ' || c = '\t' || c = '\n' || c = '\r'

/-- JS `String.prototype.trim` over our whitespace model. -/
def jsTrim (s : String) : String :=
  String.mk (((s.data.dropWhile isWsChar).reverse.dropWhile isWsChar).reverse)

/-- ASCII lower-casing of one character (the identifiers handled by the code
are ASCII). -/
def asciiLower (c : Char) : Char :=
  if 'A' ≤ c && c ≤ 'Z' then Char.ofNat (c.toNat + 32) else c

/-- JS `String.prototype.toLowerCase` restricted to ASCII. -/
def jsLower (s : String) : String :=
  String.mk (s.data.map asciiLower)

/-- JS `String.prototype.startsWith`. -/
def jsStartsWith (s pre : String) : Bool :=
  pre.data.isPrefixOf s.data

/-- JS `String.prototype.includes` for a single character. -/
def jsIncludesChar (s : String) (c : Char) : Bool :=
  s.data.contains c

/-- `s.split(/\s+/)` with empty fragments removed; the callers either filter
them out (`filter(Boolean)`) or pass them to predicates on which the empty
string is inert, so the embedding drops them uniformly. -/
def splitWs (s : String) : List String :=
  ((s.data.splitOnP isWsChar).map String.mk).filter (fun t => t ≠ "")

/-- DOM `childNodes`: every child, text nodes included. -/
def childNodes : Node → List Node
  | .text _ => []
  | .elem _ _ cs => cs

/-- Is the node an element node? -/
def isElemNode : Node → Bool
  | .text _ => false
  | .elem _ _ _ => true

/-- The tag of an element node (`""` on text, which carries no tag). -/
def tagOf : Node → String
  | .text _ => ""
  | .elem t _ _ => t

/-- DOM `children`: element children only. -/
def elemChildren (n : Node) : List Node :=
  (childNodes n).filter isElemNode

/-- DOM `getAttribute` (as an option; absent attribute is JS `null`). -/
def getAttr (n : Node) (key : String) : Option String :=
  match n with
  | .text _ => none
  | .elem _ attrs _ => (attrs.find? (fun p => p.1 = key)).map (·.2)

/-- DOM `setAttribute`: replace the value in place when the attribute exists,
append it otherwise; a no-op on text nodes. -/
def setAttr (n : Node) (key v : String) : Node :=
  match n with
  | .text s => .text s
  | .elem t attrs cs =>
    if attrs.any (fun p => p.1 = key) then
      .elem t (attrs.map (fun p => if p.1 = key then (key, v) else p)) cs
    else
      .elem t (attrs ++ [(key, v)]) cs

/-- DOM `appendChild` (clones are identities in the pure model). -/
def appendChild (n : Node) (c : Node) : Node :=
  match n with
  | .text s => .text s
  | .elem t attrs cs => .elem t attrs (cs ++ [c])

/-- Appending a list of nodes (a document fragment, or a cloned child list). -/
def appendChildList (n : Node) (cs : List Node) : Node :=
  cs.foldl appendChild n

/-- DOM `className` (the empty string when no `class` attribute is set). -/
def classNameOf (n : Node) : String :=
  (getAttr n "class").getD ""

mutual

/-- DOM `textContent` of a node: the concatenated text data. -/
def textContent : Node → String
  | .text s => s
  | .elem _ _ cs => textContentList cs

/-- `textContent` over a child list. -/
def textContentList : List Node → String
  | [] => ""
  | c :: cs => textContent c ++ textContentList cs

end

/-- Attribute serialization used by `serializeNode`. -/
def serializeAttrs (attrs : List (String × String)) : String :=
  match attrs with
  | [] => ""
  | p :: ps => " " ++ p.1 ++ "=" ++ "\"" ++ p.2 ++ "\"" ++ serializeAttrs ps

mutual

/-- Serialization of one node (`outerHTML` for elements); text is emitted raw,
attributes in document order — the model ignores entity escaping. -/
def serializeNode : Node → String
  | .text s => s
  | .elem t attrs cs =>
    "<" ++ t ++ serializeAttrs attrs ++ ">" ++ serializeNodeList cs ++ "</" ++ t ++ ">"

/-- Serialization of a child list (`innerHTML`). -/
def serializeNodeList : List Node → String
  | [] => ""
  | c :: cs => serializeNode c ++ serializeNodeList cs

end

/-- DOM `innerHTML` of a node. -/
def innerHTML (n : Node) : String :=
  serializeNodeList (childNodes n)

/-- DOM `outerHTML` of a node. -/
def outerHTML (n : Node) : String :=
  serializeNode n

mutual

/-- Strict descendants of a node, in document (pre-)order. -/
def descendants : Node → List Node
  | .text _ => []
  | .elem _ _ cs => descendantsList cs

/-- Nodes of a list together with all their descendants, in document order. -/
def descendantsList : List Node → List Node
  | [] => []
  | c :: cs => c :: descendants c ++ descendantsList cs

end

/-- `querySelector(sel)` for a predicate: the first strict descendant element
matching it, in document order. -/
def querySelectorP (p : Node → Bool) (n : Node) : Option Node :=
  (descendants n).find? (fun d => isElemNode d && p d)

/-- `querySelectorAll(tag)`: every strict descendant element with that tag,
in document order. -/
def querySelectorAllTag (tag : String) (n : Node) : List Node :=
  (descendants n).filter (fun d => tagOf d = tag)

/-- JS `Map.prototype.get` / object indexing on an association list. -/
def jsGet {α : Type} (m : List (String × α)) (k : String) : Option α :=
  (m.find? (fun p => p.1 = k)).map (·.2)

/-- JS `Map.prototype.set` / object assignment: update the entry in place when
the key exists, append it otherwise. -/
def jsSet {α : Type} (m : List (String × α)) (k : String) (v : α) : List (String × α) :=
  if m.any (fun p => p.1 = k) then
    m.map (fun p => if p.1 = k then (k, v) else p)
  else
    m ++ [(k, v)]

/-- The character of one decimal digit. -/
def decDigitChar : Nat → Char
  | 0 => '0' | 1 => '1' | 2 => '2' | 3 => '3' | 4 => '4'
  | 5 => '5' | 6 => '6' | 7 => '7' | 8 => '8' | 9 => '9' | _ => 'x'

/-- Big-endian decimal digits, structurally recursive on a fuel bound (any
fuel above the number is enough, since dividing by ten strictly shrinks). -/
def decDigitsCore : Nat → Nat → List Nat
  | 0, _ => []
  | fuel + 1, n => if n < 10 then [n] else decDigitsCore fuel (n / 10) ++ [n % 10]

/-- Big-endian decimal digits of a natural number. -/
def decDigitsBE (n : Nat) : List Nat :=
  decDigitsCore (n + 1) n

/-- The decimal numeral of a natural number, as produced by JS template
interpolation of a (small, non-negative, integral) number. -/
def decRepr (n : Nat) : String :=
  String.mk ((decDigitsBE n).map decDigitChar)

/-- An ASCII letter, as matched by `[a-z]` under the `i` flag. -/
def isAsciiLetter (c : Char) : Bool :=
  ('a' ≤ c && c ≤ 'z') || ('A' ≤ c && c ≤ 'Z')

/-- A character of the reference-token class `[a-z0-9-]` under the `i` flag. -/
def isRefTokenChar (c : Char) : Bool :=
  isAsciiLetter c || c.isDigit || c = '-'

/-- Greedy match of the regex fragment `[a-z0-9-]*-\d+` at the head of `cs`,
trying the longest `[a-z0-9-]*` prefix first (index `k` counts the candidate
prefix length, descending).  Returns the matched characters and how many
characters were consumed. -/
def tokenTailAt (cs : List Char) : Nat → Option (List Char × Nat)
  | 0 =>
    match cs with
    | '-' :: rest =>
      let d := rest.takeWhile Char.isDigit
      if d.isEmpty then none else some ('-' :: d, 1 + d.length)
    | _ => none
  | k + 1 =>
    let w := cs.take (k + 1)
    let attempt :=
      if w.all isRefTokenChar then
        match cs.drop (k + 1) with
        | '-' :: rest =>
          let d := rest.takeWhile Char.isDigit
          if d.isEmpty then none else some (w ++ '-' :: d, (k + 1) + 1 + d.length)
        | _ => none
      else none
    match attempt with
    | some r => some r
    | none => tokenTailAt cs k

/-- Match of `\s*([a-z][a-z0-9-]*-\d+)` (the part of the reference regex after
the arrow) at the head of `cs`: the captured token, lower-cased as the callers
do, and the number of characters of `cs` consumed. -/
def matchRefTail (cs : List Char) : Option (String × Nat) :=
  let ws := cs.takeWhile isWsChar
  match cs.drop ws.length with
  | c :: cs₂ =>
    if isAsciiLetter c then
      match tokenTailAt cs₂ ((cs₂.takeWhile isRefTokenChar).length) with
      | some (tail, consumed) =>
        some (jsLower (String.mk (c :: tail)), ws.length + 1 + consumed)
      | none => none
    else none
  | [] => none

/-- Fuel-indexed global regex scan; every step consumes at least one
character, so fuel equal to the list length is always sufficient. -/
def scanRefsAux : Nat → List Char → List String × List Char
  | 0, cs => ([], cs)
  | _ + 1, [] => ([], [])
  | fuel + 1, c :: rest =>
    if c = '→' then
      match matchRefTail rest with
      | some (tok, n) =>
        let r := scanRefsAux fuel (rest.drop n)
        (tok :: r.1, r.2)
      | none =>
        let r := scanRefsAux fuel rest
        (r.1, c :: r.2)
    else
      let r := scanRefsAux fuel rest
      (r.1, c :: r.2)

/-- Global scan of `/→\s*([a-z][a-z0-9-]*-\d+)/gi` over a character list, as
both `matchAll` and `replace` perform it: the captured tokens in order
(lower-cased) together with the unmatched residue (what `replace(re, '')`
keeps). -/
def scanRefs (cs : List Char) : List String × List Char :=
  scanRefsAux cs.length cs

/-- `parseReferences`: extract every reference token from the text. -/
def parseReferences (text : String) : List String :=
  (scanRefs text.data).1

/-- `isReferenceOnly`: after removing every reference match and all commas,
only whitespace remains. -/
def isReferenceOnly (text : String) : Bool :=
  jsTrim (String.mk ((scanRefs text.data).2.filter (fun c => c ≠ ','))) = ""

/-- The configured allow-list of vanilla text/formatting tags
(`vanilla-tags.js`). -/
def VANILLA_TAGS : List String :=
  ["p", "h1", "h2", "h3", "h4", "h5", "h6", "span", "a", "strong", "em",
   "b", "i", "u", "br"]

/-- `VANILLA_TAGS.has`. -/
def vanillaHas (s : String) : Bool :=
  VANILLA_TAGS.contains s

/-- `isCustomElementClass`: the generic `experience-element` marker, or any
non-empty hyphenated token outside the vanilla allow-list. -/
def isCustomElementClass (cls : String) : Bool :=
  if cls = "experience-element" then true
  else cls ≠ "" && jsIncludesChar cls '-' && !vanillaHas cls

/-- `classToTagName`. -/
def classToTagName (cls : String) : String :=
  jsLower cls

/-- `getElementName`: the value cell of the first two-cell `element-name`
row (returned even when it trims to the empty string, as the source does),
otherwise the first hyphenated non-vanilla class other than the generic
marker. -/
def getElementName (blockDiv : Node) : Option String :=
  let rows := (childNodes blockDiv).filter (fun c => tagOf c = "div")
  match rows.findSome? (fun row =>
      match (childNodes row).filter (fun c => tagOf c = "div") with
      | [c0, c1] =>
        if jsTrim (textContent c0) = "element-name" then
          some (jsTrim (textContent c1))
        else none
      | _ => none) with
  | some name => some name
  | none =>
    let classes := splitWs (classNameOf blockDiv)
    classes.find? (fun c =>
      jsIncludesChar c '-' && !vanillaHas c && c ≠ "experience-element")

/-- A parsed block row: optional slot name (absent for a single-cell row),
content cell, and whether the label was wrapped in `strong`. -/
structure ParsedRow where
  slotName : Option String
  content : Node
  isSlot : Bool
deriving DecidableEq

/-- `parseBlockRow`: split a row div into slot name and content; with two or
more div cells the first two are used, the first giving the (possibly
`strong`-wrapped) label. -/
def parseBlockRow (rowDiv : Node) : Option ParsedRow :=
  match (childNodes rowDiv).filter (fun c => tagOf c = "div") with
  | [] => none
  | [c] => some ⟨none, c, false⟩
  | c0 :: c1 :: _ =>
    let strongEl := querySelectorP (fun d => tagOf d = "strong") c0
    let sn := match strongEl with
      | some s => jsTrim (textContent s)
      | none => jsTrim (textContent c0)
    some ⟨some sn, c1, strongEl.isSome⟩

/-- `findNestedBlock`: the first element child that is a div carrying a
custom-element class. -/
def findNestedBlock (contentDiv : Node) : Option Node :=
  (elemChildren contentDiv).find? (fun child =>
    tagOf child = "div" && classNameOf child ≠ "" &&
      (splitWs (classNameOf child)).any isCustomElementClass)

/-- `#isSimplePWrapper`: exactly one element child, a `p` with no element
children of its own. -/
def isSimplePWrapper (contentDiv : Node) : Bool :=
  match elemChildren contentDiv with
  | [child] => tagOf child = "p" && (elemChildren child).isEmpty
  | _ => false

/-- The patterns of the block-level-content test
`/<(p|h[1-6]|div|ul|ol|table)/i`, which has no word boundary after the tag. -/
def blockTagPatterns : List String :=
  ["<p", "<h1", "<h2", "<h3", "<h4", "<h5", "<h6", "<div", "<ul", "<ol", "<table"]

/-- Contiguous-substring test on character lists. -/
def listIsSeg (pat hay : List Char) : Bool :=
  if pat.isPrefixOf hay then true
  else
    match hay with
    | [] => false
    | _ :: t => listIsSeg pat t

/-- The `hasBlockElements` regex test over a serialized HTML string. -/
def hasBlockElementsTest (s : String) : Bool :=
  blockTagPatterns.any (fun pat => listIsSeg pat.data (jsLower s).data)

/-- Trimming of the left end of a fragment, as re-parsing a trimmed
`innerHTML` string does: leading whitespace of a leading text node vanishes. -/
def trimLeftNodes : List Node → List Node
  | .text s :: rest =>
    let s' := String.mk (s.data.dropWhile isWsChar)
    if s' = "" then trimLeftNodes rest else .text s' :: rest
  | cs => cs

/-- Trimming of trailing whitespace text, phrased on a reversed fragment. -/
def trimRightNodesRev : List Node → List Node
  | .text s :: rest =>
    let s' := String.mk ((s.data.reverse.dropWhile isWsChar).reverse)
    if s' = "" then trimRightNodesRev rest else .text s' :: rest
  | cs => cs

/-- Children obtained by assigning `wrapper.innerHTML = innerHTML.trim()`:
the original children with boundary whitespace of boundary text removed. -/
def trimFragmentNodes (cs : List Node) : List Node :=
  (trimRightNodesRev (trimLeftNodes cs).reverse).reverse

/-- `if (slotName) n.setAttribute('slot', slotName)` with JS truthiness. -/
def setSlotIf (n : Node) (slotName : Option String) : Node :=
  match slotName with
  | some s => if s = "" then n else setAttr n "slot" s
  | none => n

/-- Serialization of the collected style variables:
`--name: value` pairs joined by `; ` in insertion order. -/
def styleAttrValue (vars : List (String × String)) : String :=
  String.intercalate "; " (vars.map (fun p => p.1 ++ ": " ++ p.2))

/-- The shared shape of `buildBlockMap`/`buildTableMap`, which differ only in
the element-name extractor: number truthy names per lower-cased name in
document order and map `name-count` to the owning node. -/
def buildMapByAux (getName : Node → Option String) :
    List Node → List (String × Nat) → List (String × Node) → List (String × Node)
  | [], _, m => m
  | b :: bs, counts, m =>
    match getName b with
    | some name =>
      if name = "" then buildMapByAux getName bs counts m
      else
        let nameLower := jsLower name
        let count := (jsGet counts nameLower).getD 0 + 1
        buildMapByAux getName bs (jsSet counts nameLower count)
          (jsSet m (nameLower ++ "-" ++ decRepr count) b)
    | none => buildMapByAux getName bs counts m

/-- `buildBlockMap`: block identifiers to block elements. -/
def buildBlockMap (blocks : List Node) : List (String × Node) :=
  buildMapByAux getElementName blocks [] []

/-- `getElementNameFromTable`: the value cell of the first two-`td`
`element-name` table row. -/
def getElementNameFromTable (tbl : Node) : Option String :=
  (querySelectorAllTag "tr" tbl).findSome? (fun row =>
    match querySelectorAllTag "td" row with
    | [c0, c1] =>
      if jsTrim (textContent c0) = "element-name" then
        some (jsTrim (textContent c1))
      else none
    | _ => none)

/-- `buildTableMap`: table identifiers to table elements. -/
def buildTableMap (tables : List Node) : List (String × Node) :=
  buildMapByAux getElementNameFromTable tables [] []

mutual

/-- `convertContent`: content of a labeled row with markup, converted into the
node list to append (a fragment, or one node). -/
def convertContent (bm : List (String × Node)) :
    Nat → Node → Option String → List Node
  | 0, _, _ => []
  | fuel + 1, contentDiv, slotName =>
    match findNestedBlock contentDiv with
    | some nested => [setSlotIf (convertBlock bm fuel nested) slotName]
    | none =>
      let innerH := jsTrim (innerHTML contentDiv)
      let textC := jsTrim (textContent contentDiv)
      let refs := parseReferences textC
      if refs.length > 0 && isReferenceOnly textC then
        refs.foldl (fun acc refId =>
          match jsGet bm refId with
          | some refBlock => acc ++ [setSlotIf (convertBlock bm fuel refBlock) slotName]
          | none => acc) []
      else if hasBlockElementsTest innerH then
        (childNodes contentDiv).map (fun node =>
          if isElemNode node then setSlotIf node slotName else node)
      else
        [setSlotIf (Node.elem "span" [] (trimFragmentNodes (childNodes contentDiv))) slotName]

/-- One iteration of the row loop of `convertBlock` over the state
`(element, styleVars)`. -/
def processBlockRow (bm : List (String × Node)) :
    Nat → Node × List (String × String) → Node → Node × List (String × String)
  | 0, st, _ => st
  | fuel + 1, st, row =>
    match parseBlockRow row with
    | none => st
    | some pr =>
      if pr.slotName = some "element-name" then st
      else
        let textC := jsTrim (textContent pr.content)
        let innerH := jsTrim (innerHTML pr.content)
        let isStyleRow := match pr.slotName with
          | some s => jsStartsWith s "style-"
          | none => false
        if isStyleRow then
          let s := pr.slotName.getD ""
          (st.1, jsSet st.2 ("--" ++ String.mk (s.data.drop 6)) textC)
        else
          let refs := parseReferences textC
          if refs.length > 0 && isReferenceOnly textC then
            (refs.foldl (fun e refId =>
              match jsGet bm refId with
              | some refBlock =>
                let conv := convertBlock bm fuel refBlock
                let conv := match pr.slotName with
                  | some sn =>
                    if sn ≠ "" && sn ≠ "children" then setAttr conv "slot" sn else conv
                  | none => conv
                appendChild e conv
              | none => e) st.1, st.2)
          else if (querySelectorP (fun d => (getAttr d "slot").isSome) pr.content).isSome then
            (appendChildList st.1 (childNodes pr.content), st.2)
          else
            match pr.slotName with
            | none =>
              match elemChildren pr.content with
              | [only] =>
                if tagOf only = "p" then (appendChildList st.1 (childNodes only), st.2)
                else (appendChildList st.1 (childNodes pr.content), st.2)
              | _ => (appendChildList st.1 (childNodes pr.content), st.2)
            | some sn =>
              if pr.isSlot then
                let wrapper :=
                  setAttr (Node.elem "span" [] (trimFragmentNodes (childNodes pr.content))) "slot" sn
                (appendChild st.1 wrapper, st.2)
              else if innerH ≠ textC && !isSimplePWrapper pr.content then
                (appendChildList st.1 (convertContent bm fuel pr.content (some sn)), st.2)
              else if sn ≠ "" then
                (setAttr st.1 (if sn = "attr-type" then "type" else sn) textC, st.2)
              else st

/-- `convertBlock`: convert one block div to a custom element (a block without
a custom class or a truthy element name is returned as a clone of itself). -/
def convertBlock (bm : List (String × Node)) : Nat → Node → Node
  | 0, blockDiv => blockDiv
  | fuel + 1, blockDiv =>
    let classes := splitWs (classNameOf blockDiv)
    match classes.find? isCustomElementClass with
    | none => blockDiv
    | some blockCls =>
      match getElementName blockDiv with
      | none => blockDiv
      | some elementName =>
        if elementName = "" then blockDiv
        else
          let tagName := jsLower elementName
          let el := Node.elem tagName [] []
          let otherClasses := classes.filter (fun c =>
            c ≠ blockCls && c ≠ "experience-element" && c ≠ elementName)
          let el := otherClasses.foldl (fun e cls => setAttr e cls "") el
          let rows := (childNodes blockDiv).filter (fun c => tagOf c = "div")
          let st := rows.foldl (fun st row => processBlockRow bm fuel st row) (el, [])
          if st.2.length > 0 then setAttr st.1 "style" (styleAttrValue st.2) else st.1

end

mutual

/-- One iteration of the row loop of `convertTable`. -/
def processTableRow (tm : List (String × Node)) :
    Nat → Node × List (String × String) → Node → Node × List (String × String)
  | 0, st, _ => st
  | fuel + 1, st, row =>
    match querySelectorAllTag "td" row with
    | [c0] =>
      if getAttr c0 "colspan" = some "2" then
        if jsTrim (textContent c0) = "experience-element" then st
        else
          match elemChildren c0 with
          | [only] =>
            if tagOf only = "p" then (appendChildList st.1 (childNodes only), st.2)
            else (appendChildList st.1 (childNodes c0), st.2)
          | _ => (appendChildList st.1 (childNodes c0), st.2)
      else st
    | [c0, c1] =>
      let key := jsTrim (textContent c0)
      let textC := jsTrim (textContent c1)
      let innerH := jsTrim (innerHTML c1)
      if key = "element-name" then st
      else if jsStartsWith key "style-" then
        (st.1, jsSet st.2 ("--" ++ String.mk (key.data.drop 6)) textC)
      else
        let refs := parseReferences textC
        if refs.length > 0 && isReferenceOnly textC then
          (refs.foldl (fun e refId =>
            match jsGet tm refId with
            | some refTable =>
              match convertTable tm fuel refTable with
              | some conv =>
                let conv := if key ≠ "" && key ≠ "children" then setAttr conv "slot" key else conv
                appendChild e conv
              | none => e
            | none => e) st.1, st.2)
        else if innerH ≠ textC then
          if (querySelectorP (fun d => (getAttr d "slot").isSome) c1).isSome then
            (appendChildList st.1 (childNodes c1), st.2)
          else
            let wrapper := Node.elem "span" [] (trimFragmentNodes (childNodes c1))
            let wrapper := if key ≠ "" then setAttr wrapper "slot" key else wrapper
            (appendChild st.1 wrapper, st.2)
        else if key ≠ "" then
          (setAttr st.1 (if key = "attr-type" then "type" else key) textC, st.2)
        else st
    | _ => st

/-- `convertTable`: convert one author-format table to a custom element
(`null` when the element name is missing or empty). -/
def convertTable (tm : List (String × Node)) : Nat → Node → Option Node
  | 0, _ => none
  | fuel + 1, tbl =>
    match getElementNameFromTable tbl with
    | none => none
    | some elementName =>
      if elementName = "" then none
      else
        let el := Node.elem (jsLower elementName) [] []
        let rows := querySelectorAllTag "tr" tbl
        let st := rows.foldl (fun st row => processTableRow tm fuel st row) (el, [])
        some (if st.2.length > 0 then setAttr st.1 "style" (styleAttrValue st.2) else st.1)

end

/-- Does a node carry a custom-element class token
(`classes.some(isCustomElementClass)`)? -/
def hasComponentMarker (n : Node) : Bool :=
  (splitWs (classNameOf n)).any isCustomElementClass

mutual

/-- The `walk` of `findBlocks`: collect maximal block divs, without
descending into a found block. -/
def findBlocksWalk : Node → List Node
  | .text _ => []
  | .elem tag attrs cs =>
    if tag = "div" && classNameOf (.elem tag attrs cs) ≠ "" &&
        hasComponentMarker (.elem tag attrs cs) then
      [.elem tag attrs cs]
    else findBlocksWalkList cs

/-- `findBlocksWalk` over a child list. -/
def findBlocksWalkList : List Node → List Node
  | [] => []
  | c :: cs => findBlocksWalk c ++ findBlocksWalkList cs

end

/-- `findBlocks`: all maximal block divs under (and including) the root. -/
def findBlocks (root : Node) : List Node :=
  findBlocksWalk root

mutual

/-- Search for the first `td` descendant having a `tr` ancestor below the
search root (`querySelector('tr td')`); the flag records whether a `tr` was
passed. -/
def firstTdIn : Bool → Node → Option Node
  | _, .text _ => none
  | inTr, .elem tag attrs cs =>
    if tag = "td" && inTr then some (.elem tag attrs cs)
    else firstTdInList (inTr || tag = "tr") cs

/-- `firstTdIn` over a child list. -/
def firstTdInList : Bool → List Node → Option Node
  | _, [] => none
  | inTr, c :: cs =>
    match firstTdIn inTr c with
    | some r => some r
    | none => firstTdInList inTr cs

end

/-- `table.querySelector('tr td')`. -/
def firstTrTd (tbl : Node) : Option Node :=
  firstTdInList false (childNodes tbl)

/-- `findTables`: every descendant table whose first `tr td` cell holds the
literal marker text. -/
def findTables (root : Node) : List Node :=
  (querySelectorAllTag "table" root).filter (fun tbl =>
    match firstTrTd tbl with
    | some cell => jsTrim (textContent cell) = "experience-element"
    | none => false)

/-- The referenced-identifier harvest shared by `findRootBlock` and
`findRootTable`: every reference token of every component's text. -/
def harvestRefIds (items : List Node) : List String :=
  items.foldl (fun acc b => acc ++ parseReferences (textContent b)) []

/-- Positional identifier assignment (the `blockCounts`/`blockIds` loops):
the identifier of each component in document order, `none` for components
without a truthy element name. -/
def idListByAux (getName : Node → Option String) :
    List Node → List (String × Nat) → List (Option String)
  | [], _ => []
  | b :: bs, counts =>
    match getName b with
    | some name =>
      if name = "" then none :: idListByAux getName bs counts
      else
        let nameLower := jsLower name
        let count := (jsGet counts nameLower).getD 0 + 1
        some (nameLower ++ "-" ++ decRepr count) ::
          idListByAux getName bs (jsSet counts nameLower count)
    | none => none :: idListByAux getName bs counts

/-- Positional identifiers for a component list. -/
def idListBy (getName : Node → Option String) (items : List Node) :
    List (Option String) :=
  idListByAux getName items []

/-- The unreferenced identifier-bearing components, in document order. -/
def unreferencedBy (getName : Node → Option String) (items : List Node) :
    List Node :=
  let referencedIds := harvestRefIds items
  (items.zip (idListBy getName items)).filterMap (fun p =>
    match p.2 with
    | some bid => if referencedIds.contains bid then none else some p.1
    | none => none)

/-- The shared shape of `findRootBlock`/`findRootTable`: the root-selection
policy over a discovered component list. -/
def findRootBy (getName : Node → Option String) (items : List Node) :
    Option Node :=
  match items with
  | [] => none
  | [b] => some b
  | _ =>
    let unref := unreferencedBy getName items
    if unref.length = 1 then unref.head?
    else if unref.length > 1 then unref.getLast?
    else items.getLast?

/-- `findRootBlock`. -/
def findRootBlock (blocks : List Node) : Option Node :=
  findRootBy getElementName blocks

/-- `findRootTable`. -/
def findRootTable (tables : List Node) : Option Node :=
  findRootBy getElementNameFromTable tables

/-- The table branch of `fromEDS` (markup mode): build the table map, select
the root table, convert it; fall back to the input text when conversion
returns `null`. -/
def tablePipelineMarkup (html : String) (tables : List Node) (fuel : Nat) : String :=
  let tm := buildTableMap tables
  match findRootTable tables with
  | some rootTable =>
    match convertTable tm fuel rootTable with
    | some conv => outerHTML conv
    | none => html
  | none => html

/-- `fromEDS`: full conversion to markup text.  HTML parsing and the
`main`-or-`body` selection are outside the model: `root` is the already
selected content root of the parsed input, `html` the raw input text. -/
def fromEDS (html : String) (root : Node) (fuel : Nat) : String :=
  let tables := findTables root
  if tables.length > 0 then
    tablePipelineMarkup html tables fuel
  else
    let blocks := findBlocks root
    if blocks.isEmpty then html
    else
      let bm := buildBlockMap blocks
      match findRootBlock blocks with
      | some rootBlock => outerHTML (convertBlock bm fuel rootBlock)
      | none => html

/-- The table branch of `toElement`: build the table map and convert the
first table. -/
def tablePipelineElement (tables : List Node) (fuel : Nat) : Option Node :=
  let tm := buildTableMap tables
  match tables with
  | t :: _ => convertTable tm fuel t
  | [] => none

/-- `toElement`: conversion to an in-memory element.  It converts `tables[0]`
resp. `blocks[0]`, not the root-selected component. -/
def toElement (root : Node) (fuel : Nat) : Option Node :=
  let tables := findTables root
  if tables.length > 0 then
    tablePipelineElement tables fuel
  else
    let blocks := findBlocks root
    if blocks.isEmpty then (elemChildren root).head?
    else
      let bm := buildBlockMap blocks
      match blocks with
      | b :: _ => some (convertBlock bm fuel b)
      | [] => none

/-! ### Analysis definitions -/

/-- Is the node's extracted element name truthy (present and non-empty)?
Components failing this are skipped by identifier assignment. -/
def hasTruthyName (getName : Node → Option String) (b : Node) : Bool :=
  match getName b with
  | some n => n ≠ ""
  | none => false

/-- A JS object built from key/value assignments in order. -/
def jsObjOfPairs (ps : List (String × String)) : List (String × String) :=
  ps.foldl (fun m p => jsSet m p.1 p.2) []

/-- The value of the last assignment to a key. -/
def lastValueOf (ps : List (String × String)) (k : String) : Option String :=
  match ps with
  | [] => none
  | p :: rest =>
    match lastValueOf rest k with
    | some v => some v
    | none => if p.1 = k then some p.2 else none

/-- First occurrences of keys in order, given the keys already seen. -/
def firstSeenAux : List String → List String → List String
  | [], _ => []
  | k :: ks, seen =>
    if k ∈ seen then firstSeenAux ks seen
    else k :: firstSeenAux ks (k :: seen)

/-- The distinct keys of a list in first-seen order. -/
def firstSeen (xs : List String) : List String :=
  firstSeenAux xs []

/-- The truthy element names of a component list, lower-cased, in document
order — the names identifier assignment numbers. -/
def harvestNames (getName : Node → Option String) (items : List Node) :
    List String :=
  items.filterMap (fun b =>
    match getName b with
    | some name => if name = "" then none else some (jsLower name)
    | none => none)

/-- The (lower-cased name, count) pairs assigned by the per-name running
counters, given the counter state. -/
def idPairsAux : List String → List (String × Nat) → List (String × Nat)
  | [], _ => []
  | n :: ns, counts =>
    let c := (jsGet counts n).getD 0 + 1
    (n, c) :: idPairsAux ns (jsSet counts n c)

/-- The identifier string of one (name, count) pair. -/
def idStringOf (p : String × Nat) : String :=
  p.1 ++ "-" ++ decRepr p.2

/-- The slot annotation of a resolved reference child: applied exactly when
the label is truthy and not the `children` sentinel. -/
def setSlotChild (slotName : Option String) (n : Node) : Node :=
  match slotName with
  | some sn => if sn ≠ "" && sn ≠ "children" then setAttr n "slot" sn else n
  | none => n

/-! ### The abstract logical document and its two surface encodings

A logical component is a named list of (label, content) rows; the encoders
below produce the two surface forms documented at the head of `from-eds.js`
(block rows as nested divs, author tables with the `experience-element`
header row and an `element-name` row). -/

/-- One logical row: an optional label and the content nodes of its cell. -/
structure LRow where
  label : Option String
  content : List Node

/-- One logical component: element name and rows. -/
structure LComp where
  name : String
  rows : List LRow

/-- Block encoding of one row. -/
def encodeBlockRow (r : LRow) : Node :=
  match r.label with
  | some l => .elem "div" [] [.elem "div" [] [.text l], .elem "div" [] r.content]
  | none => .elem "div" [] [.elem "div" [] r.content]

/-- Block encoding of one component: `div.experience-element` with an
`element-name` row followed by the content rows. -/
def encodeBlockComp (c : LComp) : Node :=
  .elem "div" [("class", "experience-element")]
    (.elem "div" [] [.elem "div" [] [.text "element-name"],
       .elem "div" [] [.text c.name]] :: c.rows.map encodeBlockRow)

/-- Table encoding of one row (wide single cell for an unlabeled row). -/
def encodeTableRow (r : LRow) : Node :=
  match r.label with
  | some l => .elem "tr" [] [.elem "td" [] [.text l], .elem "td" [] r.content]
  | none => .elem "tr" [] [.elem "td" [("colspan", "2")] r.content]

/-- Table encoding of one component: marker header row, `element-name` row,
then the content rows. -/
def encodeTableComp (c : LComp) : Node :=
  .elem "table" []
    (.elem "tr" [] [.elem "td" [("colspan", "2")] [.text "experience-element"]] ::
     .elem "tr" [] [.elem "td" [] [.text "element-name"],
       .elem "td" [] [.text c.name]] :: c.rows.map encodeTableRow)

/-- A row on which the two encodings agree: labeled (truthy, not
`element-name`), with a single text node as content that is not
reference-only. -/
def rowPlain (r : LRow) : Bool :=
  match r.label, r.content with
  | some l, [Node.text s] =>
    jsTrim l ≠ "" && jsTrim l ≠ "element-name" &&
      !(decide (0 < (parseReferences (jsTrim s)).length) &&
        isReferenceOnly (jsTrim s))
  | _, _ => false

/-! ### Concrete fixtures -/

/-- Shorthand: an unclassed div. -/
def dv (cs : List Node) : Node := .elem "div" [] cs

/-- Shorthand: a div with a class attribute. -/
def dvc (cls : String) (cs : List Node) : Node := .elem "div" [("class", cls)] cs

/-- Shorthand: a text node. -/
def tx (s : String) : Node := .text s

/-- Shorthand: a two-cell block row. -/
def brow (l : String) (cs : List Node) : Node := dv [dv [tx l], dv cs]

/-- C1 counterexample component: one labeled row whose value is wrapped in a
paragraph. -/
def c1cexComp : LComp := ⟨"x-card", [⟨some "foo", [.elem "p" [] [tx "bar"]]⟩]⟩

/-- C1 witness component: a style row and two plain attribute rows. -/
def c1okComp : LComp :=
  ⟨"pay-card", [⟨some "style-color", [tx "red"]⟩, ⟨some "plan", [tx "Basic"]⟩,
    ⟨some "attr-type", [tx "promo"]⟩]⟩

/-- C2 fixture: a named block. -/
def c2Named : Node := dvc "experience-element" [brow "element-name" [tx "x-a"]]

/-- C2 fixture: a block with no resolvable element name. -/
def c2Nameless : Node := dvc "experience-element" []

/-- C3 fixture: the referenced block. -/
def c3Target : Node := dvc "experience-element" [brow "element-name" [tx "z-t"]]

/-- C3 fixture: a block whose `style-media` row is reference-only. -/
def c3StyleRef : Node := dvc "experience-element"
  [brow "element-name" [tx "y-b"], brow "style-media" [tx "→ z-t-1"]]

/-- C3 fixture: the identifier index of the two C3 blocks. -/
def c3Map : List (String × Node) := buildBlockMap [c3Target, c3StyleRef]

/-- C4 fixture: first discovered block. -/
def c4First : Node := dvc "experience-element" [brow "element-name" [tx "a-x"]]

/-- C4 fixture: last discovered block. -/
def c4Last : Node := dvc "experience-element" [brow "element-name" [tx "b-y"]]

/-- C4 fixture: a document with two unreferenced blocks. -/
def c4Root : Node := .elem "main" [] [c4First, c4Last]

/-- C5 counterexample fixture: a plain-text row labeled literally `style`. -/
def c5Plain : Node := dvc "experience-element"
  [brow "element-name" [tx "z-a"], brow "style" [tx "color: red"]]

/-- C5 fixture: `style-color: red` then `style-color: blue`. -/
def c5RedBlue : Node := dvc "experience-element"
  [brow "element-name" [tx "w-c"], brow "style-color" [tx "red"],
   brow "style-color" [tx "blue"]]

/-- C6 fixture: the single-cell content whose sole child is a `p` with
structure inside. -/
def c6Content : Node := dv [.elem "p" [] [.elem "em" [] [tx "a"]]]

/-- C6 fixture: a block with one single-cell row around `c6Content`. -/
def c6Block : Node := dvc "experience-element"
  [brow "element-name" [tx "q-d"], dv [c6Content]]

/-- C7/C10 fixture: two components sharing the lower-cased name `n-a`. -/
def c7BlockA : Node := dvc "experience-element" [brow "element-name" [tx "n-a"]]

/-- C7 fixture: the second same-named component. -/
def c7BlockB : Node := dvc "experience-element" [brow "element-name" [tx "N-A"]]

/-- C8 witness fixture: a document without component markers or tables. -/
def c8Root : Node := .elem "main" [] [.elem "p" [] [tx "hello"]]

/-- C9 witness fixture: a marker table next to a block div. -/
def c9Table : Node := .elem "table" []
  [.elem "tr" [] [.elem "td" [("colspan", "2")] [tx "experience-element"]],
   .elem "tr" [] [.elem "td" [] [tx "element-name"], .elem "td" [] [tx "t-el"]]]

/-- C9 witness fixture root. -/
def c9Root : Node := .elem "main" [] [c9Table, c4First]

/-! ### Helper lemmas -/

mutual

theorem findBlocksWalk_nil : ∀ n : Node,
    (∀ m ∈ n :: descendants n, hasComponentMarker m = false) →
    findBlocksWalk n = []
  | .text _, _ => rfl
  | .elem tag attrs cs, h => by
    have hself : hasComponentMarker (.elem tag attrs cs) = false :=
      h _ (List.mem_cons_self _ _)
    have hrest : ∀ m ∈ descendantsList cs, hasComponentMarker m = false := by
      intro m hm
      exact h m (List.mem_cons_of_mem _ hm)
    rw [findBlocksWalk, hself]
    simp only [Bool.and_false, if_false]
    exact findBlocksWalkList_nil cs hrest

theorem findBlocksWalkList_nil : ∀ cs : List Node,
    (∀ m ∈ descendantsList cs, hasComponentMarker m = false) →
    findBlocksWalkList cs = []
  | [], _ => rfl
  | c :: cs, h => by
    have h1 : ∀ m ∈ c :: descendants c, hasComponentMarker m = false := by
      intro m hm
      refine h m ?_
      rcases List.mem_cons.mp hm with h1 | h2
      · exact h1 ▸ List.mem_cons_self _ _
      · exact List.mem_cons_of_mem _ (List.mem_append_left _ h2)
    have h2 : ∀ m ∈ descendantsList cs, hasComponentMarker m = false := by
      intro m hm
      exact h m (List.mem_cons_of_mem _ (List.mem_append_right _ hm))
    rw [findBlocksWalkList, findBlocksWalk_nil c h1, findBlocksWalkList_nil cs h2]
    rfl

end

/-! ### Claims -/

/-- C8: for every input containing no experience-element tables and no node
carrying a component-marker class, the full conversion operation is a
structural passthrough: it returns the input markup unchanged. -/
theorem C8_no_components_passthrough (html : String) (root : Node) (fuel : Nat)
    (hT : findTables root = [])
    (hB : ∀ m ∈ root :: descendants root, hasComponentMarker m = false) :
    fromEDS html root fuel = html := by
  have hblocks : findBlocksWalk root = [] := findBlocksWalk_nil root hB
  rw [fromEDS]
  simp [hT, findBlocks, hblocks]

/-- Witness for C8 at a concrete markerless document. -/
theorem C8_witness : fromEDS "ORIGINAL" c8Root 5 = "ORIGINAL" :=
  C8_no_components_passthrough "ORIGINAL" c8Root 5 (by decide) (by decide)

/-- C9: as soon as the input contains an experience-element table, both
operation modes are computed entirely by the table pipeline (which discovers,
numbers, resolves and root-selects tables only): the result is a function of
the discovered table list alone, so block-encoded components are never
consulted. -/
theorem C9_tables_shadow_blocks (html : String) (root : Node) (fuel : Nat)
    (h : findTables root ≠ []) :
    fromEDS html root fuel = tablePipelineMarkup html (findTables root) fuel ∧
    toElement root fuel = tablePipelineElement (findTables root) fuel := by
  have hlen : 0 < (findTables root).length := List.length_pos.mpr h
  constructor
  · rw [fromEDS]
    simp [hlen]
  · rw [toElement]
    simp [hlen]

/-- Witness for C9: a document holding one marker table and one block div is
converted through the table pipeline in both modes. -/
theorem C9_witness :
    fromEDS "RAW" c9Root 5 = tablePipelineMarkup "RAW" (findTables c9Root) 5 ∧
    toElement c9Root 5 = tablePipelineElement (findTables c9Root) 5 :=
  C9_tables_shadow_blocks "RAW" c9Root 5 (by decide)

theorem mem_jsSet {α : Type} {m : List (String × α)} {k : String} {v : α}
    {q : String × α} (hq : q ∈ jsSet m k v) : q = (k, v) ∨ q ∈ m := by
  unfold jsSet at hq
  split at hq
  · rcases List.mem_map.mp hq with ⟨p, hp, hpq⟩
    by_cases hk : p.1 = k
    · simp only [hk, if_true] at hpq
      exact Or.inl hpq.symm
    · simp only [hk, if_false] at hpq
      exact Or.inr (hpq ▸ hp)
  · rcases List.mem_append.mp hq with h | h
    · exact Or.inr h
    · simp only [List.mem_singleton] at h
      exact Or.inl h

theorem buildMapByAux_truthy (getName : Node → Option String) :
    ∀ (items : List Node) (counts : List (String × Nat))
      (m : List (String × Node)),
      (∀ p ∈ m, hasTruthyName getName p.2 = true) →
      ∀ p ∈ buildMapByAux getName items counts m,
        hasTruthyName getName p.2 = true
  | [], _, _, hm, p, hp => hm p hp
  | b :: bs, counts, m, hm, p, hp => by
    rw [buildMapByAux] at hp
    rcases hname : getName b with _ | name
    · simp only [hname] at hp
      exact buildMapByAux_truthy getName bs counts m hm p hp
    · simp only [hname] at hp
      by_cases hempty : name = ""
      · rw [if_pos hempty] at hp
        exact buildMapByAux_truthy getName bs counts m hm p hp
      · rw [if_neg hempty] at hp
        refine buildMapByAux_truthy getName bs _ _ ?_ p hp
        intro q hq
        rcases mem_jsSet hq with hq | hq
        · rw [hq]
          simp [hasTruthyName, hname, hempty]
        · exact hm q hq

theorem jsGet_eq_some_mem {α : Type} {m : List (String × α)} {k : String}
    {v : α} (h : jsGet m k = some v) : (k, v) ∈ m := by
  unfold jsGet at h
  rcases hfind : m.find? (fun p => p.1 = k) with _ | p
  · rw [hfind] at h
    exact absurd h (by simp)
  · rw [hfind] at h
    simp only [Option.map_some'] at h
    have hmem := List.mem_of_find?_eq_some hfind
    have hkey := List.find?_some hfind
    simp only [decide_eq_true_eq] at hkey
    have : p = (k, v) := by
      cases p
      simp_all
    exact this ▸ hmem

theorem mem_zip_idList_truthy (getName : Node → Option String) :
    ∀ (items : List Node) (counts : List (String × Nat)) (a : Node)
      (ob : Option String),
      (a, ob) ∈ items.zip (idListByAux getName items counts) →
      ob.isSome → hasTruthyName getName a = true
  | [], _, _, _, hmem, _ => by simp at hmem
  | b :: bs, counts, a, ob, hmem, hsome => by
    rw [idListByAux] at hmem
    rcases hname : getName b with _ | name
    · simp only [hname] at hmem
      rcases List.mem_cons.mp hmem with h | h
      · rcases Prod.mk.injEq .. ▸ h with ⟨rfl, rfl⟩
        simp at hsome
      · exact mem_zip_idList_truthy getName bs counts a ob h hsome
    · simp only [hname] at hmem
      by_cases hempty : name = ""
      · rw [if_pos hempty] at hmem
        rcases List.mem_cons.mp hmem with h | h
        · rcases Prod.mk.injEq .. ▸ h with ⟨rfl, rfl⟩
          simp at hsome
        · exact mem_zip_idList_truthy getName bs counts a ob h hsome
      · rw [if_neg hempty] at hmem
        rcases List.mem_cons.mp hmem with h | h
        · rcases Prod.mk.injEq .. ▸ h with ⟨rfl, rfl⟩
          simp [hasTruthyName, hname, hempty]
        · exact mem_zip_idList_truthy getName bs _ a ob h hsome

theorem mem_unreferencedBy_truthy (getName : Node → Option String)
    (items : List Node) (x : Node) (hx : x ∈ unreferencedBy getName items) :
    hasTruthyName getName x = true := by
  unfold unreferencedBy at hx
  rcases List.mem_filterMap.mp hx with ⟨⟨a, ob⟩, hmem, hval⟩
  rcases ob with _ | bid
  · simp at hval
  · simp only at hval
    split at hval
    · exact absurd hval (by simp)
    · have : a = x := by simpa using hval
      exact this ▸ mem_zip_idList_truthy getName items [] a (some bid) hmem rfl

/-- C10: a discovered component with no truthy element name is never entered
into the identifier index (every index entry has a truthy name), is never a
member of the unreferenced set used by root selection, is selected as root
only when it is the last discovered component, and its conversion is the
unconverted copy of its original subtree. -/
theorem C10_nameless_component_isolation :
    (∀ (blocks : List Node) (bid : String) (b : Node),
      jsGet (buildBlockMap blocks) bid = some b →
      hasTruthyName getElementName b = true)
  ∧ (∀ (blocks : List Node) (b : Node),
      hasTruthyName getElementName b = false →
      b ∉ unreferencedBy getElementName blocks)
  ∧ (∀ (blocks : List Node) (b : Node),
      findRootBlock blocks = some b →
      hasTruthyName getElementName b = false →
      blocks.getLast? = some b)
  ∧ (∀ (bm : List (String × Node)) (fuel : Nat) (b : Node),
      hasTruthyName getElementName b = false →
      convertBlock bm fuel b = b) := by
  refine ⟨?_, ?_, ?_, ?_⟩
  · intro blocks bid b hget
    have hmem := jsGet_eq_some_mem hget
    exact buildMapByAux_truthy getElementName blocks [] [] (by simp) _ hmem
  · intro blocks b hfalse hmem
    exact absurd (mem_unreferencedBy_truthy getElementName blocks b hmem)
      (by simp [hfalse])
  · intro blocks b hroot hfalse
    unfold findRootBlock findRootBy at hroot
    rcases blocks with _ | ⟨x, _ | ⟨y, rest⟩⟩
    · exact absurd hroot (by simp)
    · simpa using hroot
    · simp only at hroot
      split at hroot
      · rename_i hlen
        rcases List.length_eq_one.mp hlen with ⟨u, hu⟩
        rw [hu] at hroot
        have : b ∈ unreferencedBy getElementName (x :: y :: rest) := by
          rw [hu]
          simp only [List.head?_cons, Option.some.injEq] at hroot
          simp [hroot]
        exact absurd (mem_unreferencedBy_truthy _ _ _ this) (by simp [hfalse])
      · split at hroot
        · have hmem : b ∈ unreferencedBy getElementName (x :: y :: rest) := by
            rcases List.mem_getLast?_eq_getLast hroot with ⟨hne, hb⟩
            exact hb ▸ List.getLast_mem hne
          exact absurd (mem_unreferencedBy_truthy _ _ _ hmem) (by simp [hfalse])
        · exact hroot
  · intro bm fuel b hfalse
    rcases fuel with _ | fuel
    · rfl
    · rw [convertBlock]
      rcases hfind : (splitWs (classNameOf b)).find? isCustomElementClass with _ | cls
      · rfl
      · rcases hname : getElementName b with _ | name
        · rfl
        · have hname0 : name = "" := by
            by_contra hne
            simp only [hasTruthyName, hname, decide_eq_false_iff_not, ne_eq,
              not_not] at hfalse
            exact hne hfalse
          simp [hname0]

theorem zip_idList_filterMap_truthy (getName : Node → Option String) :
    ∀ (items : List Node) (counts : List (String × Nat)),
      (items.zip (idListByAux getName items counts)).filterMap (fun p =>
        match p.2 with
        | some _ => some p.1
        | none => none) = items.filter (hasTruthyName getName)
  | [], _ => rfl
  | b :: bs, counts => by
    rw [idListByAux]
    rcases hname : getName b with _ | name
    · have hf : hasTruthyName getName b = false := by simp [hasTruthyName, hname]
      simp only [List.zip_cons_cons, List.filterMap_cons, List.filter_cons, hf,
        Bool.false_eq_true, if_false]
      exact zip_idList_filterMap_truthy getName bs counts
    · by_cases hempty : name = ""
      · have hf : hasTruthyName getName b = false := by
          simp [hasTruthyName, hname, hempty]
        simp only [hempty, if_pos rfl, List.zip_cons_cons, List.filterMap_cons,
          List.filter_cons, hf, Bool.false_eq_true, if_false]
        exact zip_idList_filterMap_truthy getName bs counts
      · have ht : hasTruthyName getName b = true := by
          simp [hasTruthyName, hname, hempty]
        simp only [if_neg hempty, List.zip_cons_cons, List.filterMap_cons,
          List.filter_cons, ht, if_true]
        rw [zip_idList_filterMap_truthy getName bs]

theorem unreferencedBy_no_refs (getName : Node → Option String)
    (items : List Node) (h : harvestRefIds items = []) :
    unreferencedBy getName items = items.filter (hasTruthyName getName) := by
  unfold unreferencedBy
  rw [h]
  have : ∀ p : Node × Option String,
      (match p.2 with
        | some bid => if ([] : List String).contains bid = true then none else some p.1
        | none => none) =
      (match p.2 with
        | some _ => some p.1
        | none => none) := by
    intro p
    rcases p.2 with _ | bid <;> simp
  rw [List.filterMap_congr (fun p _ => this p)]
  exact zip_idList_filterMap_truthy getName items [] ▸ rfl

/-- C2 (amended): root selection picks the unique identifier-bearing
unreferenced component when exactly one exists, otherwise the last
identifier-bearing unreferenced component, and the last discovered component
overall when no identifier-bearing component is unreferenced.  With exactly
one component, that component is root.  Under zero reference tokens the
unreferenced set is exactly the identifier-bearing components in document
order, so with N>1 components all bearing identifiers, the last component is
root (for the block pipeline and the table pipeline alike). -/
theorem C2_root_selection_policy :
    (∀ (getName : Node → Option String) (b : Node),
      findRootBy getName [b] = some b)
  ∧ (∀ (getName : Node → Option String) (items : List Node),
      2 ≤ items.length →
      (∀ u, unreferencedBy getName items = [u] →
        findRootBy getName items = some u)
      ∧ (2 ≤ (unreferencedBy getName items).length →
          findRootBy getName items = (unreferencedBy getName items).getLast?)
      ∧ (unreferencedBy getName items = [] →
          findRootBy getName items = items.getLast?))
  ∧ (∀ (getName : Node → Option String) (items : List Node),
      harvestRefIds items = [] →
      unreferencedBy getName items = items.filter (hasTruthyName getName))
  ∧ (∀ blocks : List Node, 2 ≤ blocks.length → harvestRefIds blocks = [] →
      (∀ b ∈ blocks, hasTruthyName getElementName b = true) →
      findRootBlock blocks = blocks.getLast?)
  ∧ (∀ tables : List Node, 2 ≤ tables.length → harvestRefIds tables = [] →
      (∀ t ∈ tables, hasTruthyName getElementNameFromTable t = true) →
      findRootTable tables = tables.getLast?) := by
  have hcases : ∀ (getName : Node → Option String) (items : List Node),
      2 ≤ items.length →
      (∀ u, unreferencedBy getName items = [u] →
        findRootBy getName items = some u)
      ∧ (2 ≤ (unreferencedBy getName items).length →
          findRootBy getName items = (unreferencedBy getName items).getLast?)
      ∧ (unreferencedBy getName items = [] →
          findRootBy getName items = items.getLast?) := by
    intro getName items hlen
    rcases items with _ | ⟨x, _ | ⟨y, rest⟩⟩
    · simp at hlen
    · simp at hlen
    · refine ⟨?_, ?_, ?_⟩
      · intro u hu
        rw [findRootBy] <;> simp [hu]
      · intro h2
        have hne1 : ¬(unreferencedBy getName (x :: y :: rest)).length = 1 := by
          omega
        have hgt : (unreferencedBy getName (x :: y :: rest)).length > 1 := by
          omega
        rw [findRootBy] <;> simp [hne1, hgt]
      · intro h0
        rw [findRootBy] <;> simp [h0]
  have hlast : ∀ (getName : Node → Option String) (items : List Node),
      2 ≤ items.length → harvestRefIds items = [] →
      (∀ b ∈ items, hasTruthyName getName b = true) →
      findRootBy getName items = items.getLast? := by
    intro getName items hlen href hall
    have hunref : unreferencedBy getName items = items := by
      rw [unreferencedBy_no_refs getName items href]
      exact List.filter_eq_self.mpr hall
    have h2 : 2 ≤ (unreferencedBy getName items).length := by
      rw [hunref]
      exact hlen
    rw [(hcases getName items hlen).2.1 h2, hunref]
  exact ⟨fun _ _ => rfl, hcases, unreferencedBy_no_refs,
    fun blocks h1 h2 h3 => hlast getElementName blocks h1 h2 h3,
    fun tables h1 h2 h3 => hlast getElementNameFromTable tables h1 h2 h3⟩

theorem findRootBy_isSome (getName : Node → Option String) :
    ∀ items : List Node, items ≠ [] → ∃ r, findRootBy getName items = some r := by
  intro items hne
  rcases items with _ | ⟨x, _ | ⟨y, rest⟩⟩
  · exact absurd rfl hne
  · exact ⟨x, rfl⟩
  · rw [findRootBy]
    rotate_left
    · simp
    · simp
    by_cases h1 : (unreferencedBy getName (x :: y :: rest)).length = 1
    · rcases List.length_eq_one.mp h1 with ⟨u, hu⟩
      rw [if_pos h1, hu]
      exact ⟨u, rfl⟩
    · by_cases h2 : (unreferencedBy getName (x :: y :: rest)).length > 1
      · have hne2 : unreferencedBy getName (x :: y :: rest) ≠ [] := by
          intro h0
          rw [h0] at h2
          simp at h2
        rw [if_neg h1, if_pos h2, List.getLast?_eq_getLast_of_ne_nil hne2]
        exact ⟨_, rfl⟩
      · rw [if_neg h1, if_neg h2,
          List.getLast?_eq_getLast_of_ne_nil (List.cons_ne_nil x (y :: rest))]
        exact ⟨_, rfl⟩

/-- C4 (amended): in mode (a) — full conversion to markup — the component
converted as entry point is the one chosen by root selection, for tables and
blocks alike; in mode (b) — `toElement` — the entry point is the FIRST
discovered component (`tables[0]` / `blocks[0]`), not the root-selected
one. -/
theorem C4_entry_components (html : String) (root : Node) (fuel : Nat) :
    (findTables root = [] → findBlocks root ≠ [] →
      ∃ rb, findRootBlock (findBlocks root) = some rb ∧
        fromEDS html root fuel =
          outerHTML (convertBlock (buildBlockMap (findBlocks root)) fuel rb))
  ∧ (findTables root = [] → ∀ b bs, findBlocks root = b :: bs →
      toElement root fuel =
        some (convertBlock (buildBlockMap (findBlocks root)) fuel b))
  ∧ (∀ t ts, findTables root = t :: ts →
      toElement root fuel =
        convertTable (buildTableMap (findTables root)) fuel t)
  ∧ (findTables root ≠ [] →
      ∃ rt, findRootTable (findTables root) = some rt ∧
        fromEDS html root fuel =
          (match convertTable (buildTableMap (findTables root)) fuel rt with
           | some conv => outerHTML conv
           | none => html)) := by
  refine ⟨?_, ?_, ?_, ?_⟩
  · intro hT hB
    rcases findRootBy_isSome getElementName (findBlocks root) hB with ⟨rb, hrb⟩
    refine ⟨rb, hrb, ?_⟩
    rcases List.exists_cons_of_ne_nil hB with ⟨b, bs, hbs⟩
    rw [hbs] at hrb
    rw [fromEDS]
    simp only [hT, List.length_nil, gt_iff_lt, Nat.lt_irrefl, if_false, hbs,
      List.isEmpty_cons, Bool.false_eq_true, if_false, findRootBlock, hrb]
  · intro hT b bs hblocks
    rw [toElement]
    simp only [hT, List.length_nil, gt_iff_lt, Nat.lt_irrefl, if_false,
      hblocks, List.isEmpty_cons, Bool.false_eq_true, if_false]
  · intro t ts htables
    rw [toElement]
    simp only [htables, List.length_cons, tablePipelineElement]
    simp
  · intro hT
    rcases findRootBy_isSome getElementNameFromTable (findTables root) hT with
      ⟨rt, hrt⟩
    refine ⟨rt, hrt, ?_⟩
    rw [fromEDS]
    have hlen : 0 < (findTables root).length := List.length_pos.mpr hT
    simp only [gt_iff_lt, hlen, if_true, tablePipelineMarkup, findRootTable,
      hrt]

/-- C4 counterexample: a document with two unreferenced blocks; root
selection picks the last block and mode (a) converts it, but mode (b)
converts the first block, so the two modes disagree on the entry
component. -/
theorem C4_counterexample :
    toElement c4Root 5 = some (Node.elem "a-x" [] []) ∧
    findRootBlock (findBlocks c4Root) = some c4Last ∧
    convertBlock (buildBlockMap (findBlocks c4Root)) 5 c4Last =
      Node.elem "b-y" [] [] ∧
    fromEDS "RAW" c4Root 5 = outerHTML (Node.elem "b-y" [] []) ∧
    Node.elem "a-x" [] [] ≠ Node.elem "b-y" [] [] := by decide

/-- Witness for C4: at the concrete two-block document, mode (a) converts the
root-selected block. -/
theorem C4_witness :
    ∃ rb, findRootBlock (findBlocks c4Root) = some rb ∧
      fromEDS "RAW" c4Root 5 =
        outerHTML (convertBlock (buildBlockMap (findBlocks c4Root)) 5 rb) :=
  (C4_entry_components "RAW" c4Root 5).1 (by decide) (by decide)

/-- C2 counterexample: with two discovered components and zero reference
tokens the claim demands the last component as root, but when the last
component has no resolvable element name the code selects the first (the
unique identifier-bearing) one instead. -/
theorem C2_counterexample :
    harvestRefIds [c2Named, c2Nameless] = [] ∧
    findRootBlock [c2Named, c2Nameless] = some c2Named ∧
    [c2Named, c2Nameless].getLast? = some c2Nameless ∧
    c2Named ≠ c2Nameless := by decide

/-- Witness for C2 at concrete inputs: a singleton component is its own root,
and two identifier-bearing components without references select the last. -/
theorem C2_witness :
    findRootBy getElementName [c4First] = some c4First ∧
    findRootBlock [c4First, c4Last] = [c4First, c4Last].getLast? :=
  ⟨C2_root_selection_policy.1 getElementName c4First,
   C2_root_selection_policy.2.2.2.1 [c4First, c4Last] (by decide) (by decide)
     (by decide)⟩

theorem find?_mapSet {α : Type} (k k' : String) (v : α) :
    ∀ m : List (String × α),
      (m.map (fun p => if p.1 = k then (k, v) else p)).find?
          (fun p => p.1 = k') =
        if k' = k then (m.find? (fun p => p.1 = k)).map (fun _ => (k, v))
        else m.find? (fun p => p.1 = k')
  | [] => by by_cases h : k' = k <;> simp [h]
  | p :: rest => by
    by_cases hp : p.1 = k
    · by_cases hk : k' = k
      · simp [hp, hk, List.find?_cons]
      · simp only [List.map_cons, hp, if_pos rfl, if_neg hk]
        rw [List.find?_cons_of_neg _ (by simpa using fun h => hk h.symm),
          List.find?_cons_of_neg _ (by simp [hp]; exact fun h => hk (h ▸ rfl))]
        have := find?_mapSet k k' v rest
        rw [if_neg hk] at this
        exact this
    · simp only [List.map_cons, hp, if_neg hp]
      by_cases hp' : p.1 = k'
      · by_cases hk : k' = k
        · exact absurd (hk ▸ hp') hp
        · simp only [if_neg hk]
          rw [List.find?_cons_of_pos _ (by simpa using hp'),
            List.find?_cons_of_pos _ (by simpa using hp')]
          simp [hp]
      · by_cases hk : k' = k
        · simp only [if_pos hk]
          rw [List.find?_cons_of_neg _ (by simpa using hp'),
            List.find?_cons_of_neg _ (by simpa using hp)]
          have := find?_mapSet k k' v rest
          rw [if_pos hk] at this
          exact this
        · simp only [if_neg hk]
          rw [List.find?_cons_of_neg _ (by simpa using hp'),
            List.find?_cons_of_neg _ (by simpa using hp')]
          have := find?_mapSet k k' v rest
          rw [if_neg hk] at this
          exact this

theorem jsGet_jsSet {α : Type} (m : List (String × α)) (k k' : String)
    (v : α) :
    jsGet (jsSet m k v) k' = if k' = k then some v else jsGet m k' := by
  unfold jsSet jsGet
  split
  · rename_i hany
    rw [find?_mapSet]
    by_cases hk : k' = k
    · rw [if_pos hk, if_pos hk]
      have hsome : (m.find? (fun p => decide (p.1 = k))).isSome := by
        rw [List.find?_isSome]
        rcases List.any_eq_true.mp hany with ⟨p, hp, hpk⟩
        exact ⟨p, hp, hpk⟩
      rcases Option.isSome_iff_exists.mp hsome with ⟨p, hp⟩
      rw [hp]
      rfl
    · rw [if_neg hk, if_neg hk]
  · rename_i hany
    rw [List.find?_append]
    by_cases hk : k' = k
    · subst hk
      have hnone : m.find? (fun p => decide (p.1 = k')) = none := by
        rw [List.find?_eq_none]
        intro p hp
        simp only [decide_eq_true_eq]
        intro hpk
        exact hany (List.any_eq_true.mpr ⟨p, hp, by simpa using hpk⟩)
      rw [if_pos rfl, hnone]
      simp only [Option.none_or]
      rw [List.find?_cons_of_pos _ (by simp)]
      rfl
    · rw [if_neg hk]
      cases hfind : m.find? (fun p => decide (p.1 = k')) with
      | some p => simp [hfind]
      | none =>
        simp only [hfind, Option.none_or]
        rw [List.find?_cons_of_neg _ (by simpa using fun h => hk h.symm)]
        simp

theorem jsGet_jsSet_self {α : Type} (m : List (String × α)) (k : String)
    (v : α) : jsGet (jsSet m k v) k = some v := by
  rw [jsGet_jsSet, if_pos rfl]

theorem keys_jsSet {α : Type} (m : List (String × α)) (k : String) (v : α) :
    (jsSet m k v).map Prod.fst =
      if m.any (fun p => p.1 = k) then m.map Prod.fst
      else m.map Prod.fst ++ [k] := by
  unfold jsSet
  split
  · rw [List.map_map]
    apply List.map_congr_left
    intro p _
    by_cases hp : p.1 = k
    · simp [hp]
    · simp [hp]
  · simp

theorem firstSeenAux_append_one :
    ∀ (xs : List String) (k : String) (seen : List String),
      firstSeenAux (xs ++ [k]) seen =
        firstSeenAux xs seen ++ (if k ∈ seen ∨ k ∈ xs then [] else [k])
  | [], k, seen => by
    by_cases hk : k ∈ seen <;> simp [firstSeenAux, hk]
  | x :: xs, k, seen => by
    simp only [List.cons_append, firstSeenAux, List.append_eq]
    by_cases hx : x ∈ seen
    · rw [if_pos hx, if_pos hx, firstSeenAux_append_one xs k seen]
      congr 1
      apply if_congr _ rfl rfl
      constructor
      · rintro (h | h)
        · exact Or.inl h
        · exact Or.inr (List.mem_cons_of_mem _ h)
      · rintro (h | h)
        · exact Or.inl h
        · rcases List.mem_cons.mp h with rfl | h
          · exact Or.inl hx
          · exact Or.inr h
    · rw [if_neg hx, if_neg hx, firstSeenAux_append_one xs k (x :: seen),
        List.cons_append]
      congr 2
      apply if_congr _ rfl rfl
      simp only [List.mem_cons]
      tauto

theorem mem_firstSeenAux :
    ∀ (xs seen : List String) (k : String),
      k ∈ firstSeenAux xs seen ↔ k ∈ xs ∧ k ∉ seen
  | [], seen, k => by simp [firstSeenAux]
  | x :: xs, seen, k => by
    rw [firstSeenAux]
    by_cases hx : x ∈ seen
    · rw [if_pos hx, mem_firstSeenAux xs seen k]
      simp only [List.mem_cons]
      constructor
      · rintro ⟨h1, h2⟩
        exact ⟨Or.inr h1, h2⟩
      · rintro ⟨h1 | h1, h2⟩
        · exact absurd (h1 ▸ hx) h2
        · exact ⟨h1, h2⟩
    · rw [if_neg hx]
      simp only [List.mem_cons, mem_firstSeenAux xs (x :: seen) k,
        List.mem_cons]
      constructor
      · rintro (rfl | ⟨h1, h2⟩)
        · exact ⟨Or.inl rfl, hx⟩
        · exact ⟨Or.inr h1, fun hk => h2 (Or.inr hk)⟩
      · rintro ⟨rfl | h1, h2⟩
        · exact Or.inl rfl
        · by_cases hkx : k = x
          · exact Or.inl hkx
          · exact Or.inr ⟨h1, fun hk => (by tauto : False)⟩

theorem firstSeen_append_one (xs : List String) (k : String) :
    firstSeen (xs ++ [k]) = firstSeen xs ++ (if k ∈ xs then [] else [k]) := by
  rw [firstSeen, firstSeen, firstSeenAux_append_one]
  simp

theorem mem_firstSeen (xs : List String) (k : String) :
    k ∈ firstSeen xs ↔ k ∈ xs := by
  rw [firstSeen, mem_firstSeenAux]
  simp

theorem lastValueOf_append_one :
    ∀ (ps : List (String × String)) (q : String × String) (k : String),
      lastValueOf (ps ++ [q]) k =
        if q.1 = k then some q.2 else lastValueOf ps k
  | [], q, k => by simp [lastValueOf]
  | p :: ps, q, k => by
    rw [List.cons_append, lastValueOf, lastValueOf_append_one ps q k,
      lastValueOf]
    by_cases hq : q.1 = k
    · simp [hq]
    · simp [hq]

theorem jsObjOfPairs_spec (ps : List (String × String)) :
    (jsObjOfPairs ps).map Prod.fst = firstSeen (ps.map Prod.fst) ∧
    ∀ k, jsGet (jsObjOfPairs ps) k = lastValueOf ps k := by
  induction ps using List.reverseRecOn with
  | nil => exact ⟨rfl, fun _ => rfl⟩
  | append_singleton ps q ih =>
    have hobj : jsObjOfPairs (ps ++ [q]) = jsSet (jsObjOfPairs ps) q.1 q.2 := by
      unfold jsObjOfPairs
      rw [List.foldl_append]
      rfl
    have hmem : (jsObjOfPairs ps).any (fun p => p.1 = q.1) = true ↔
        q.1 ∈ ps.map Prod.fst := by
      rw [List.any_eq_true]
      constructor
      · rintro ⟨p, hp, hpk⟩
        have hq : q.1 ∈ (jsObjOfPairs ps).map Prod.fst :=
          List.mem_map.mpr ⟨p, hp, by simpa using hpk⟩
        rw [ih.1, mem_firstSeen] at hq
        exact hq
      · intro hq
        have hq2 : q.1 ∈ (jsObjOfPairs ps).map Prod.fst := by
          rw [ih.1, mem_firstSeen]
          exact hq
        rcases List.mem_map.mp hq2 with ⟨p, hp, hpk⟩
        exact ⟨p, hp, by simpa using hpk⟩
    refine ⟨?_, ?_⟩
    · rw [hobj, keys_jsSet, List.map_append, List.map_cons, List.map_nil,
        firstSeen_append_one, ih.1]
      by_cases hq : q.1 ∈ ps.map Prod.fst
      · rw [if_pos (hmem.mpr hq), if_pos hq]
        simp
      · rw [if_neg (fun h => hq (hmem.mp h)), if_neg hq]
    · intro k
      rw [hobj, lastValueOf_append_one, jsGet_jsSet]
      by_cases hk : k = q.1
      · rw [if_pos hk, if_pos hk.symm]
      · rw [if_neg hk, if_neg (fun h => hk h.symm), ih.2 k]

/-- C5 (amended): the style attribute merge is deterministic: the collected
style-variable object keeps distinct variable names in first-seen order and
the last written value wins; a `style-` labeled row always contributes the
variable `--{label minus prefix} = trimmed text` through JS object
assignment; concretely, rows `style-color: red` then `style-color: blue`
yield exactly `style="--color: blue"`.  (When no `style-` rows exist the
merge contributes nothing, but a style attribute can still be set by the
ordinary attribute rule for a row labeled literally `style`.) -/
theorem C5_style_merge_determinism :
    (∀ ps : List (String × String),
      (jsObjOfPairs ps).map Prod.fst = firstSeen (ps.map Prod.fst) ∧
      ∀ k, jsGet (jsObjOfPairs ps) k = lastValueOf ps k)
  ∧ (∀ (bm : List (String × Node)) (fuel : Nat)
      (st : Node × List (String × String)) (row : Node) (pr : ParsedRow)
      (s : String), parseBlockRow row = some pr → pr.slotName = some s →
      jsStartsWith s "style-" = true →
      processBlockRow bm (fuel + 1) st row =
        (st.1, jsSet st.2 ("--" ++ String.mk (s.data.drop 6))
          (jsTrim (textContent pr.content))))
  ∧ convertBlock [] 3 c5RedBlue =
      Node.elem "w-c" [("style", "--color: blue")] [] := by
  refine ⟨jsObjOfPairs_spec, ?_, by decide⟩
  intro bm fuel st row pr s hparse hslot hstyle
  have hnotname : ¬pr.slotName = some "element-name" := by
    rw [hslot]
    intro h
    have : s = "element-name" := by simpa using h
    rw [this] at hstyle
    exact absurd hstyle (by decide)
  have hs : ¬(some s = some "element-name") := by
    intro h
    have hs2 : s = "element-name" := by simpa using h
    rw [hs2] at hstyle
    exact absurd hstyle (by decide)
  simp only [processBlockRow, hparse, if_neg hnotname, hslot, hstyle,
    Option.getD_some, if_true, if_neg hs]

/-- C5 counterexample: a component whose rows carry no `style-` label at all
(labels `element-name` and literally `style`) still emits a style attribute,
set by the plain-attribute rule — refuting "No style attribute is emitted
when no style- rows exist". -/
theorem C5_counterexample :
    ((childNodes c5Plain).filterMap (fun row =>
        (parseBlockRow row).bind (fun pr => pr.slotName))).all
      (fun l => !jsStartsWith l "style-") = true ∧
    convertBlock (buildBlockMap [c5Plain]) 5 c5Plain =
      Node.elem "z-a" [("style", "color: red")] [] := by decide

/-- Witness for C5: the style-row step at a concrete row, and last-wins at a
concrete double assignment. -/
theorem C5_witness :
    processBlockRow [] 4 (⟨Node.elem "w-c" [] [], []⟩ :
        Node × List (String × String)) (brow "style-color" [tx "red"]) =
      (Node.elem "w-c" [] [],
        jsSet [] ("--" ++ String.mk ("style-color".data.drop 6))
          (jsTrim (textContent (dv [tx "red"])))) ∧
    jsGet (jsObjOfPairs [("--color", "red"), ("--color", "blue")]) "--color" =
      lastValueOf [("--color", "red"), ("--color", "blue")] "--color" :=
  ⟨C5_style_merge_determinism.2.1 [] 3 ⟨Node.elem "w-c" [] [], []⟩
      (brow "style-color" [tx "red"]) ⟨some "style-color", dv [tx "red"], false⟩
      "style-color" (by decide) rfl (by decide),
   (C5_style_merge_determinism.1 [("--color", "red"), ("--color", "blue")]).2
      "--color"⟩

/-- The value of a big-endian digit list. -/
def valD (ds : List Nat) : Nat :=
  ds.foldl (fun a d => 10 * a + d) 0

theorem decDigitsCore_spec : ∀ (fuel n : Nat), n < fuel →
    decDigitsCore fuel n ≠ [] ∧
      (∀ d ∈ decDigitsCore fuel n, d < 10) ∧
      valD (decDigitsCore fuel n) = n
  | 0, _, h => absurd h (by omega)
  | fuel + 1, n, _ => by
    rw [decDigitsCore]
    by_cases h10 : n < 10
    · rw [if_pos h10]
      exact ⟨by simp, fun d hd => by simp at hd; omega, by simp [valD]⟩
    · rw [if_neg h10]
      have hlt : n / 10 < fuel := by
        have h1 : n / 10 < n := Nat.div_lt_self (by omega) (by omega)
        have h2 : n / 10 ≤ (fuel + 1) / 10 := by
          exact Nat.div_le_div_right (by omega)
        omega
      obtain ⟨hne, hdig, hval⟩ := decDigitsCore_spec fuel (n / 10) hlt
      refine ⟨by simp, ?_, ?_⟩
      · intro d hd
        rcases List.mem_append.mp hd with hd | hd
        · exact hdig d hd
        · simp at hd
          omega
      · rw [valD, List.foldl_append]
        simp only [List.foldl_cons, List.foldl_nil]
        rw [show List.foldl (fun a d => 10 * a + d) 0
            (decDigitsCore fuel (n / 10)) =
          valD (decDigitsCore fuel (n / 10)) from rfl, hval]
        omega

theorem decDigitsBE_spec (n : Nat) :
    decDigitsBE n ≠ [] ∧ (∀ d ∈ decDigitsBE n, d < 10) ∧
      valD (decDigitsBE n) = n :=
  decDigitsCore_spec (n + 1) n (by omega)

theorem decDigitsBE_inj {a b : Nat} (h : decDigitsBE a = decDigitsBE b) :
    a = b := by
  have ha := (decDigitsBE_spec a).2.2
  have hb := (decDigitsBE_spec b).2.2
  rw [← ha, ← hb, h]

theorem decDigitChar_inj {a b : Nat} (ha : a < 10) (hb : b < 10)
    (h : decDigitChar a = decDigitChar b) : a = b := by
  interval_cases a <;> interval_cases b <;> revert h <;> decide

theorem decDigitChar_ne_dash {d : Nat} (hd : d < 10) : decDigitChar d ≠ '-' := by
  interval_cases d <;> decide

theorem map_decDigitChar_inj : ∀ {as bs : List Nat},
    (∀ a ∈ as, a < 10) → (∀ b ∈ bs, b < 10) →
    as.map decDigitChar = bs.map decDigitChar → as = bs
  | [], [], _, _, _ => rfl
  | [], _ :: _, _, _, h => by simp at h
  | _ :: _, [], _, _, h => by simp at h
  | a :: as, b :: bs, ha, hb, h => by
    simp only [List.map_cons, List.cons.injEq] at h
    have h1 : a = b :=
      decDigitChar_inj (ha a (List.mem_cons_self _ _))
        (hb b (List.mem_cons_self _ _)) h.1
    have h2 : as = bs :=
      map_decDigitChar_inj (fun x hx => ha x (List.mem_cons_of_mem _ hx))
        (fun x hx => hb x (List.mem_cons_of_mem _ hx)) h.2
    rw [h1, h2]

theorem decRepr_inj {a b : Nat} (h : decRepr a = decRepr b) : a = b := by
  rw [decRepr, decRepr] at h
  have hdata : (decDigitsBE a).map decDigitChar =
      (decDigitsBE b).map decDigitChar := congrArg String.data h
  exact decDigitsBE_inj
    (map_decDigitChar_inj (decDigitsBE_spec a).2.1 (decDigitsBE_spec b).2.1
      hdata)

theorem decRepr_chars_ne_dash (n : Nat) :
    ∀ c ∈ (decRepr n).data, c ≠ '-' := by
  intro c hc
  rw [decRepr] at hc
  rcases List.mem_map.mp hc with ⟨d, hd, hdc⟩
  exact hdc ▸ decDigitChar_ne_dash ((decDigitsBE_spec n).2.1 d hd)

theorem append_dash_inj : ∀ (xs₁ xs₂ ys₁ ys₂ : List Char),
    (∀ c ∈ xs₁, c ≠ '-') → (∀ c ∈ xs₂, c ≠ '-') →
    xs₁ ++ '-' :: ys₁ = xs₂ ++ '-' :: ys₂ → xs₁ = xs₂ ∧ ys₁ = ys₂
  | [], [], ys₁, ys₂, _, _, h => by simpa using h
  | [], x :: xs₂, ys₁, ys₂, _, h2, h => by
    simp only [List.nil_append, List.cons_append, List.cons.injEq] at h
    exact absurd h.1.symm (h2 x (List.mem_cons_self _ _))
  | x :: xs₁, [], ys₁, ys₂, h1, _, h => by
    simp only [List.nil_append, List.cons_append, List.cons.injEq] at h
    exact absurd h.1 (h1 x (List.mem_cons_self _ _))
  | x₁ :: xs₁, x₂ :: xs₂, ys₁, ys₂, h1, h2, h => by
    simp only [List.cons_append, List.cons.injEq] at h
    obtain ⟨hxs, hys⟩ := append_dash_inj xs₁ xs₂ ys₁ ys₂
      (fun c hc => h1 c (List.mem_cons_of_mem _ hc))
      (fun c hc => h2 c (List.mem_cons_of_mem _ hc)) h.2
    exact ⟨by rw [h.1, hxs], hys⟩

theorem idStringOf_inj : Function.Injective idStringOf := by
  intro ⟨n₁, c₁⟩ ⟨n₂, c₂⟩ h
  rw [idStringOf, idStringOf] at h
  have hdata : n₁.data ++ '-' :: (decRepr c₁).data =
      n₂.data ++ '-' :: (decRepr c₂).data := by
    have := congrArg String.data h
    simpa [String.data_append] using this
  have hrev : (decRepr c₁).data.reverse ++ '-' :: n₁.data.reverse =
      (decRepr c₂).data.reverse ++ '-' :: n₂.data.reverse := by
    have := congrArg List.reverse hdata
    simpa [List.reverse_append] using this
  obtain ⟨hd, hn⟩ := append_dash_inj _ _ _ _
    (fun c hc => decRepr_chars_ne_dash c₁ c (List.mem_reverse.mp hc))
    (fun c hc => decRepr_chars_ne_dash c₂ c (List.mem_reverse.mp hc)) hrev
  have hnames : n₁ = n₂ := by
    have : n₁.data = n₂.data := by
      have := congrArg List.reverse hn
      simpa using this
    cases n₁
    cases n₂
    exact congrArg String.mk (by simpa using this)
  have hcounts : c₁ = c₂ := by
    have hdd : (decRepr c₁).data = (decRepr c₂).data := by
      have := congrArg List.reverse hd
      simpa using this
    have : decRepr c₁ = decRepr c₂ := by
      cases hr1 : decRepr c₁
      cases hr2 : decRepr c₂
      rw [hr1, hr2] at hdd
      exact congrArg String.mk (by simpa using hdd)
    exact decRepr_inj this
  rw [hnames, hcounts]

theorem idPairsAux_length : ∀ (names : List String)
    (counts : List (String × Nat)),
    (idPairsAux names counts).length = names.length
  | [], _ => rfl
  | _ :: ns, counts => by
    rw [idPairsAux]
    simp only [List.length_cons]
    rw [idPairsAux_length ns]

theorem idPairsAux_getD : ∀ (names : List String)
    (counts : List (String × Nat)) (i : Nat), i < names.length →
    (idPairsAux names counts).getD i ("", 0) =
      (names.getD i "",
       (jsGet counts (names.getD i "")).getD 0 +
         (names.take i).count (names.getD i "") + 1)
  | [], _, i, h => absurd h (by simp)
  | n :: ns, counts, 0, _ => by
    simp [idPairsAux, List.count_nil]
  | n :: ns, counts, i + 1, h => by
    rw [idPairsAux]
    simp only [List.getD_cons_succ, List.take_succ_cons]
    rw [idPairsAux_getD ns (jsSet counts n ((jsGet counts n).getD 0 + 1)) i
      (by simp only [List.length_cons] at h; omega)]
    rw [jsGet_jsSet]
    by_cases hx : ns.getD i "" = n
    · rw [if_pos hx, List.count_cons]
      simp only [hx, beq_self_eq_true, if_true, Option.getD_some,
        Prod.mk.injEq]
      exact ⟨trivial, by omega⟩
    · rw [if_neg hx, List.count_cons]
      have hbe : (n == ns.getD i "") = false := by
        rw [beq_eq_false_iff_ne]
        exact fun h => hx h.symm
      simp only [hbe, Bool.false_eq_true, if_false, Prod.mk.injEq]
      exact ⟨trivial, by omega⟩

theorem count_take_lt : ∀ (l : List String) (x : String) (i j : Nat),
    i < j → j ≤ l.length → l.getD i "" = x →
    (l.take i).count x < (l.take j).count x
  | [], _, _, j, hij, hj, _ => by simp at hj; omega
  | a :: l, x, 0, j + 1, _, hj, hx => by
    simp only [List.getD_cons_zero] at hx
    rw [List.take_zero, List.take_succ_cons, List.count_nil, List.count_cons]
    simp [hx]
  | a :: l, x, i + 1, j + 1, hij, hj, hx => by
    simp only [List.getD_cons_succ] at hx
    rw [List.take_succ_cons, List.take_succ_cons, List.count_cons,
      List.count_cons]
    have := count_take_lt l x i j (by omega) (by simpa using hj) hx
    omega

theorem idPairs_nodup (names : List String) :
    ((idPairsAux names []).map idStringOf).Nodup := by
  refine List.Nodup.map idStringOf_inj ?_
  rw [List.Nodup, List.pairwise_iff_getElem]
  intro i j hi hj hij
  have hi' : i < names.length := by rwa [idPairsAux_length] at hi
  have hj' : j < names.length := by rwa [idPairsAux_length] at hj
  have hgi : (idPairsAux names [])[i] =
      (idPairsAux names []).getD i ("", 0) := by
    rw [List.getD_eq_getElem?_getD, List.getElem?_eq_getElem hi,
      Option.getD_some]
  have hgj : (idPairsAux names [])[j] =
      (idPairsAux names []).getD j ("", 0) := by
    rw [List.getD_eq_getElem?_getD, List.getElem?_eq_getElem hj,
      Option.getD_some]
  rw [hgi, hgj, idPairsAux_getD names [] i hi', idPairsAux_getD names [] j hj']
  intro heq
  obtain ⟨h1, h2⟩ := Prod.mk.injEq .. ▸ heq
  have hx : names.getD i "" = names.getD j "" := h1
  have hcnt := count_take_lt names (names.getD j "") i j hij (by omega) hx
  have hbase : ∀ y : String,
      (jsGet ([] : List (String × Nat)) y).getD 0 = 0 := fun _ => rfl
  rw [hbase, hbase, hx] at h2
  omega

theorem buildMapByAux_keys (getName : Node → Option String) :
    ∀ (items : List Node) (counts : List (String × Nat))
      (m : List (String × Node)),
      (∀ (q : String) (c' : Nat), idStringOf (q, c') ∈ m.map Prod.fst →
        1 ≤ c' ∧ c' ≤ (jsGet counts q).getD 0) →
      (buildMapByAux getName items counts m).map Prod.fst =
        m.map Prod.fst ++
          (idPairsAux (harvestNames getName items) counts).map idStringOf
  | [], _, m, _ => by simp [buildMapByAux, harvestNames, idPairsAux]
  | b :: bs, counts, m, hinv => by
    rcases hname : getName b with _ | name
    · simp only [buildMapByAux, hname]
      rw [buildMapByAux_keys getName bs counts m hinv]
      simp [harvestNames, hname]
    · by_cases hempty : name = ""
      · simp only [buildMapByAux, hname]
        rw [if_pos hempty, buildMapByAux_keys getName bs counts m hinv]
        simp [harvestNames, hname, hempty]
      · simp only [buildMapByAux, hname]
        rw [if_neg hempty]
        have hharv : harvestNames getName (b :: bs) =
            jsLower name :: harvestNames getName bs := by
          simp [harvestNames, hname, hempty]
        set nl := jsLower name with hnl
        set c := (jsGet counts nl).getD 0 + 1 with hc
        have hfresh : idStringOf (nl, c) ∉ m.map Prod.fst := by
          intro hmem
          have := (hinv nl c hmem).2
          omega
        have hkeys : (jsSet m (nl ++ "-" ++ decRepr c) b).map Prod.fst =
            m.map Prod.fst ++ [idStringOf (nl, c)] := by
          rw [keys_jsSet]
          have hany : m.any (fun p => p.1 = nl ++ "-" ++ decRepr c) = false := by
            rw [Bool.eq_false_iff]
            intro hany
            rcases List.any_eq_true.mp hany with ⟨p, hp, hpk⟩
            refine hfresh (List.mem_map.mpr ⟨p, hp, ?_⟩)
            simpa [idStringOf] using hpk
          rw [hany]
          simp [idStringOf]
        have hinv' : ∀ (q : String) (c' : Nat),
            idStringOf (q, c') ∈ (jsSet m (nl ++ "-" ++ decRepr c) b).map
              Prod.fst →
            1 ≤ c' ∧ c' ≤ (jsGet (jsSet counts nl c) q).getD 0 := by
          intro q c' hmem
          rw [hkeys] at hmem
          rcases List.mem_append.mp hmem with hmem | hmem
          · obtain ⟨h1, h2⟩ := hinv q c' hmem
            refine ⟨h1, ?_⟩
            rw [jsGet_jsSet]
            by_cases hq : q = nl
            · rw [if_pos hq, Option.getD_some]
              rw [hq] at h2
              omega
            · rw [if_neg hq]
              exact h2
          · simp only [List.mem_singleton] at hmem
            obtain ⟨hq, hcc⟩ := Prod.mk.injEq .. ▸ idStringOf_inj hmem.symm
            rw [← hq, ← hcc, jsGet_jsSet, if_pos rfl, Option.getD_some]
            omega
        rw [buildMapByAux_keys getName bs (jsSet counts nl c)
          (jsSet m (nl ++ "-" ++ decRepr c) b) hinv', hkeys, hharv,
          idPairsAux]
        simp only [List.map_cons, List.append_assoc, List.singleton_append]

/-- C7: identifier assignment processes components in document order with a
per-lower-cased-name running counter starting at 1: the keys of the built
identifier index are exactly the `{name}-{count}` strings of the positional
(name, count) assignment, they are unique within one conversion call (for the
block map and the table map alike), every count is at least 1, and for any
two components with the same lower-cased name the earlier one receives the
strictly smaller count. -/
theorem C7_identifier_assignment :
    (∀ blocks : List Node,
      (buildBlockMap blocks).map Prod.fst =
        (idPairsAux (harvestNames getElementName blocks) []).map idStringOf ∧
      ((buildBlockMap blocks).map Prod.fst).Nodup)
  ∧ (∀ tables : List Node,
      (buildTableMap tables).map Prod.fst =
        (idPairsAux (harvestNames getElementNameFromTable tables) []).map
          idStringOf ∧
      ((buildTableMap tables).map Prod.fst).Nodup)
  ∧ (∀ (names : List String) (i : Nat), i < names.length →
      1 ≤ ((idPairsAux names []).getD i ("", 0)).2)
  ∧ (∀ (names : List String) (i j : Nat), i < j → j < names.length →
      ((idPairsAux names []).getD i ("", 0)).1 =
        ((idPairsAux names []).getD j ("", 0)).1 →
      ((idPairsAux names []).getD i ("", 0)).2 <
        ((idPairsAux names []).getD j ("", 0)).2) := by
  have hkeys : ∀ (getName : Node → Option String) (items : List Node),
      (buildMapByAux getName items [] []).map Prod.fst =
        (idPairsAux (harvestNames getName items) []).map idStringOf := by
    intro getName items
    rw [buildMapByAux_keys getName items [] [] (by simp)]
    rfl
  refine ⟨?_, ?_, ?_, ?_⟩
  · intro blocks
    refine ⟨hkeys getElementName blocks, ?_⟩
    rw [show buildBlockMap blocks = buildMapByAux getElementName blocks [] []
      from rfl, hkeys getElementName blocks]
    exact idPairs_nodup _
  · intro tables
    refine ⟨hkeys getElementNameFromTable tables, ?_⟩
    rw [show buildTableMap tables =
      buildMapByAux getElementNameFromTable tables [] [] from rfl,
      hkeys getElementNameFromTable tables]
    exact idPairs_nodup _
  · intro names i hi
    rw [idPairsAux_getD names [] i hi]
    omega
  · intro names i j hij hj hname
    rw [idPairsAux_getD names [] i (by omega),
      idPairsAux_getD names [] j hj] at hname ⊢
    simp only at hname
    have hcnt := count_take_lt names (names.getD j "") i j hij (by omega) hname
    simp only [jsGet, List.find?_nil, Option.map_none', Option.getD_none]
    rw [hname]
    omega

/-- Witness for C7: two components sharing the lower-cased name `n-a` receive
`n-a-1` and `n-a-2`, the index keys are distinct, counts start at 1 and grow
with document order. -/
theorem C7_witness :
    ((buildBlockMap [c7BlockA, c7BlockB]).map Prod.fst).Nodup ∧
    1 ≤ ((idPairsAux ["n-a", "n-a"] []).getD 0 ("", 0)).2 ∧
    ((idPairsAux ["n-a", "n-a"] []).getD 0 ("", 0)).2 <
      ((idPairsAux ["n-a", "n-a"] []).getD 1 ("", 0)).2 :=
  ⟨(C7_identifier_assignment.1 [c7BlockA, c7BlockB]).2,
   C7_identifier_assignment.2.2.1 ["n-a", "n-a"] 0 (by decide),
   C7_identifier_assignment.2.2.2 ["n-a", "n-a"] 0 1 (by decide) (by decide)
     (by decide)⟩

theorem foldl_resolve_eq (bm : List (String × Node)) (sn : Option String)
    (fuel : Nat) :
    ∀ (ids : List String) (e : Node),
      ids.foldl (fun e refId =>
        match jsGet bm refId with
        | some refBlock =>
          appendChild e (setSlotChild sn (convertBlock bm fuel refBlock))
        | none => e) e =
      appendChildList e (ids.filterMap (fun refId =>
        (jsGet bm refId).map
          (fun refBlock => setSlotChild sn (convertBlock bm fuel refBlock))))
  | [], _ => rfl
  | i :: ids, e => by
    rw [List.foldl_cons, List.filterMap_cons]
    cases h : jsGet bm i with
    | none =>
      simp only [h, Option.map_none']
      exact foldl_resolve_eq bm sn fuel ids e
    | some b =>
      simp only [h, Option.map_some']
      exact foldl_resolve_eq bm sn fuel ids
        (appendChild e (setSlotChild sn (convertBlock bm fuel b)))

/-- C3 (amended): for every row that reaches the reference branch of the row
classifier (its label is neither `element-name` nor `style-` prefixed) whose
content text consists only of reference tokens with at least one token
parsed: every token resolving in the identifier index is recursively
converted and appended as a child annotated via the slot policy (slot = L
exactly when L is truthy and not `children`), unresolved tokens are dropped
silently, and the row is consumed without producing any attribute or style
variable, even when zero tokens resolve. -/
theorem C3_reference_only_rows (bm : List (String × Node)) (fuel : Nat)
    (st : Node × List (String × String)) (row : Node) (pr : ParsedRow)
    (hparse : parseBlockRow row = some pr)
    (hname : pr.slotName ≠ some "element-name")
    (hstyle : (match pr.slotName with
      | some s => jsStartsWith s "style-"
      | none => false) = false)
    (hrefs : 0 < (parseReferences (jsTrim (textContent pr.content))).length)
    (honly : isReferenceOnly (jsTrim (textContent pr.content)) = true) :
    processBlockRow bm (fuel + 1) st row =
      (appendChildList st.1
        ((parseReferences (jsTrim (textContent pr.content))).filterMap
          (fun refId => (jsGet bm refId).map
            (fun refBlock =>
              setSlotChild pr.slotName (convertBlock bm fuel refBlock)))),
       st.2) := by
  have hcond : (decide
      (0 < (parseReferences (jsTrim (textContent pr.content))).length) &&
      isReferenceOnly (jsTrim (textContent pr.content))) = true := by
    rw [honly]
    simp [hrefs]
  simp only [processBlockRow, hparse, if_neg hname, hstyle,
    Bool.false_eq_true, if_false, gt_iff_lt, hcond, if_true]
  exact congrArg (fun x => (x, st.2))
    (foldl_resolve_eq bm pr.slotName fuel
      (parseReferences (jsTrim (textContent pr.content))) st.1)

/-- C3 counterexample: a `style-media` labeled row whose content text is
exactly one resolvable reference token; the claim demands the resolved
component be appended as a child, but the style branch fires first: the
output element has no children and the token survives as a style-variable
value. -/
theorem C3_counterexample :
    parseReferences "→ z-t-1" = ["z-t-1"] ∧
    isReferenceOnly "→ z-t-1" = true ∧
    (jsGet c3Map "z-t-1").isSome = true ∧
    convertBlock c3Map 5 c3StyleRef =
      Node.elem "y-b" [("style", "--media: → z-t-1")] [] := by decide

/-- Witness for C3 at a concrete mixed row: one resolvable and one
unresolvable token. -/
theorem C3_witness :
    processBlockRow c3Map 5 (⟨Node.elem "y-b" [] [], []⟩ :
        Node × List (String × String))
        (brow "media" [tx "→ z-t-1, → nope-9"]) =
      (appendChildList (Node.elem "y-b" [] [])
        ((parseReferences
            (jsTrim (textContent (dv [tx "→ z-t-1, → nope-9"])))).filterMap
          (fun refId => (jsGet c3Map refId).map
            (fun refBlock =>
              setSlotChild (some "media") (convertBlock c3Map 4 refBlock)))),
       []) :=
  C3_reference_only_rows c3Map 4 ⟨Node.elem "y-b" [] [], []⟩
    (brow "media" [tx "→ z-t-1, → nope-9"])
    ⟨some "media", dv [tx "→ z-t-1, → nope-9"], false⟩
    (by decide) (by decide) (by decide) (by decide) (by decide)

/-- C6 (amended): a single-cell row (label absent) reaching the unslotted
branch produces no attribute and no slot annotation; the content's children
are re-parented onto the current element, except that when the content's
sole element child is a `p` element, that paragraph's children are
re-parented instead — regardless of any further structure inside the
paragraph. -/
theorem C6_single_cell_unwrap (bm : List (String × Node)) (fuel : Nat)
    (st : Node × List (String × String)) (row content : Node)
    (hparse : parseBlockRow row = some ⟨none, content, false⟩)
    (hrefs : (decide
        (0 < (parseReferences (jsTrim (textContent content))).length) &&
      isReferenceOnly (jsTrim (textContent content))) = false)
    (hslot : (querySelectorP (fun d => (getAttr d "slot").isSome)
        content).isSome = false) :
    processBlockRow bm (fuel + 1) st row =
      (appendChildList st.1
        (match elemChildren content with
         | [only] =>
           if tagOf only = "p" then childNodes only else childNodes content
         | _ => childNodes content), st.2) := by
  simp only [processBlockRow, hparse, gt_iff_lt, hrefs, Bool.false_eq_true,
    if_false, hslot, reduceCtorEq]
  rcases hch : elemChildren content with _ | ⟨only, rest⟩
  · simp
  · rcases rest with _ | ⟨o2, r2⟩
    · by_cases hp : tagOf only = "p"
      · simp [hp]
      · simp [hp]
    · simp

/-- C6 counterexample: a single-cell row whose content's sole child is a `p`
with element structure inside (so not a plain paragraph wrapper); the claim
demands the `p` be kept, but the code re-parents the paragraph's children
anyway. -/
theorem C6_counterexample :
    parseBlockRow (dv [c6Content]) = some ⟨none, c6Content, false⟩ ∧
    isSimplePWrapper c6Content = false ∧
    convertBlock [] 5 c6Block =
      Node.elem "q-d" [] [Node.elem "em" [] [tx "a"]] ∧
    Node.elem "q-d" [] [Node.elem "em" [] [tx "a"]] ≠
      Node.elem "q-d" [] [Node.elem "p" [] [Node.elem "em" [] [tx "a"]]] := by
  decide

/-- Witness for C6 at the concrete structured-paragraph row. -/
theorem C6_witness :
    processBlockRow [] 5 (⟨Node.elem "q-d" [] [], []⟩ :
        Node × List (String × String)) (dv [c6Content]) =
      (appendChildList (Node.elem "q-d" [] [])
        (match elemChildren c6Content with
         | [only] =>
           if tagOf only = "p" then childNodes only else childNodes c6Content
         | _ => childNodes c6Content), []) :=
  C6_single_cell_unwrap [] 4 ⟨Node.elem "q-d" [] [], []⟩ (dv [c6Content])
    c6Content (by decide) (by decide) (by decide)

theorem strAppend_empty (s : String) : s ++ "" = s := by
  cases s with
  | mk l => exact congrArg String.mk (List.append_nil l)

/-- The common result of a plain encoded row in either pipeline: a style
variable when the trimmed label is `style-` prefixed, a plain attribute
otherwise. -/
def plainRowResult (st : Node × List (String × String)) (l s : String) :
    Node × List (String × String) :=
  if jsStartsWith (jsTrim l) "style-" then
    (st.1, jsSet st.2 ("--" ++ String.mk ((jsTrim l).data.drop 6)) (jsTrim s))
  else
    (setAttr st.1 (if jsTrim l = "attr-type" then "type" else jsTrim l)
      (jsTrim s), st.2)

theorem jsTrim_textContent_cell (tag : String) (attrs : List (String × String))
    (s : String) :
    jsTrim (textContent (Node.elem tag attrs [Node.text s])) = jsTrim s := by
  rw [show textContent (Node.elem tag attrs [Node.text s]) = s ++ "" from rfl,
    strAppend_empty]

theorem jsTrim_innerHTML_cell (tag : String) (attrs : List (String × String))
    (s : String) :
    jsTrim (innerHTML (Node.elem tag attrs [Node.text s])) = jsTrim s := by
  rw [show innerHTML (Node.elem tag attrs [Node.text s]) = s ++ "" from rfl,
    strAppend_empty]

theorem parseBlockRow_plain (l s : String) :
    parseBlockRow (encodeBlockRow ⟨some l, [Node.text s]⟩) =
      some ⟨some (jsTrim l), Node.elem "div" [] [Node.text s], false⟩ := by
  have h : parseBlockRow (encodeBlockRow ⟨some l, [Node.text s]⟩) =
      some ⟨some (jsTrim (textContent (Node.elem "div" [] [Node.text l]))),
        Node.elem "div" [] [Node.text s], false⟩ := rfl
  rw [h, jsTrim_textContent_cell]

theorem processBlockRow_plain (bm : List (String × Node)) (fuel : Nat)
    (st : Node × List (String × String)) (l s : String)
    (hl1 : jsTrim l ≠ "") (hl2 : jsTrim l ≠ "element-name")
    (hr3 : (decide (0 < (parseReferences (jsTrim s)).length) &&
      isReferenceOnly (jsTrim s)) = false) :
    processBlockRow bm (fuel + 1) st
        (encodeBlockRow ⟨some l, [Node.text s]⟩) =
      plainRowResult st l s := by
  simp only [processBlockRow, parseBlockRow_plain,
    if_neg (show ¬(some (jsTrim l) = some "element-name") by simpa using hl2),
    jsTrim_textContent_cell, jsTrim_innerHTML_cell, Option.getD_some]
  cases hsty : jsStartsWith (jsTrim l) "style-" with
  | true =>
    simp only [if_true]
    rw [plainRowResult, if_pos hsty]
  | false =>
    have hcond : (decide (jsTrim s ≠ jsTrim s) &&
        !isSimplePWrapper (Node.elem "div" [] [Node.text s])) = false := by
      simp
    simp only [Bool.false_eq_true, if_false, gt_iff_lt, hr3,
      show (querySelectorP (fun d => (getAttr d "slot").isSome)
        (Node.elem "div" [] [Node.text s])).isSome = false from rfl,
      hcond, if_pos hl1]
    rw [plainRowResult,
      if_neg (show ¬(jsStartsWith (jsTrim l) "style-" = true) by simp [hsty])]

theorem processTableRow_plain (tm : List (String × Node)) (fuel : Nat)
    (st : Node × List (String × String)) (l s : String)
    (hl1 : jsTrim l ≠ "") (hl2 : jsTrim l ≠ "element-name")
    (hr3 : (decide (0 < (parseReferences (jsTrim s)).length) &&
      isReferenceOnly (jsTrim s)) = false) :
    processTableRow tm (fuel + 1) st
        (encodeTableRow ⟨some l, [Node.text s]⟩) =
      plainRowResult st l s := by
  have hcells : querySelectorAllTag "td"
      (encodeTableRow ⟨some l, [Node.text s]⟩) =
      [Node.elem "td" [] [Node.text l], Node.elem "td" [] [Node.text s]] := rfl
  simp only [processTableRow, hcells, jsTrim_textContent_cell,
    jsTrim_innerHTML_cell, if_neg hl2]
  cases hsty : jsStartsWith (jsTrim l) "style-" with
  | true =>
    simp only [if_true]
    rw [plainRowResult, if_pos hsty]
  | false =>
    simp only [Bool.false_eq_true, if_false, gt_iff_lt, hr3,
      if_neg (show ¬(jsTrim s ≠ jsTrim s) by simp), if_pos hl1]
    rw [plainRowResult,
      if_neg (show ¬(jsStartsWith (jsTrim l) "style-" = true) by simp [hsty])]

theorem plain_row_eq (bm tm : List (String × Node)) (fuel : Nat)
    (st : Node × List (String × String)) (r : LRow)
    (hr : rowPlain r = true) :
    processBlockRow bm fuel st (encodeBlockRow r) =
      processTableRow tm fuel st (encodeTableRow r) := by
  rcases r with ⟨lab, content⟩
  rcases lab with _ | l
  · simp [rowPlain] at hr
  rcases content with _ | ⟨c0, rest⟩
  · simp [rowPlain] at hr
  rcases c0 with s | t
  · rcases rest with _ | _
    · rcases fuel with _ | fuel
      · rfl
      · simp only [rowPlain, Bool.and_eq_true, Bool.not_eq_true',
          decide_eq_true_eq] at hr
        obtain ⟨⟨hl1, hl2⟩, hr3⟩ := hr
        rw [processBlockRow_plain bm fuel st l s hl1 hl2 hr3,
          processTableRow_plain tm fuel st l s hl1 hl2 hr3]
    · simp [rowPlain] at hr
  · simp [rowPlain] at hr

theorem encode_rows_fold (bm tm : List (String × Node)) (fuel : Nat) :
    ∀ (rows : List LRow) (st : Node × List (String × String)),
      rows.all rowPlain = true →
      (rows.map encodeBlockRow).foldl
          (fun st row => processBlockRow bm fuel st row) st =
        (rows.map encodeTableRow).foldl
          (fun st row => processTableRow tm fuel st row) st
  | [], _, _ => rfl
  | r :: rows, st, hall => by
    simp only [List.all_cons, Bool.and_eq_true] at hall
    simp only [List.map_cons, List.foldl_cons]
    rw [plain_row_eq bm tm fuel st r hall.1]
    exact encode_rows_fold bm tm fuel rows _ hall.2

theorem getElementName_encodeBlockComp (c : LComp) :
    getElementName (encodeBlockComp c) = some (jsTrim c.name) := by
  have h : getElementName (encodeBlockComp c) =
      some (jsTrim (textContent (Node.elem "div" [] [Node.text c.name]))) :=
    rfl
  rw [h, jsTrim_textContent_cell]

theorem processBlockRow_nameRow (bm : List (String × Node)) (fuel : Nat)
    (st : Node × List (String × String)) (name : String) :
    processBlockRow bm fuel st (Node.elem "div" []
      [Node.elem "div" [] [Node.text "element-name"],
       Node.elem "div" [] [Node.text name]]) = st := by
  cases fuel <;> rfl

theorem encodeBlockRow_tag (r : LRow) : tagOf (encodeBlockRow r) = "div" := by
  rcases r with ⟨_ | l, cs⟩ <;> rfl

theorem filter_div_map_encodeBlockRow (rs : List LRow) :
    (rs.map encodeBlockRow).filter (fun x => tagOf x = "div") =
      rs.map encodeBlockRow := by
  rw [List.filter_eq_self]
  intro a ha
  rcases List.mem_map.mp ha with ⟨r, _, rfl⟩
  simp [encodeBlockRow_tag]

theorem convertBlock_encodeBlockComp (bm : List (String × Node)) (fuel : Nat)
    (c : LComp) (hname : jsTrim c.name ≠ "") :
    convertBlock bm (fuel + 1) (encodeBlockComp c) =
      (fun st : Node × List (String × String) =>
        if st.2.length > 0 then setAttr st.1 "style" (styleAttrValue st.2)
        else st.1)
        ((c.rows.map encodeBlockRow).foldl
          (fun st row => processBlockRow bm fuel st row)
          (Node.elem (jsLower (jsTrim c.name)) [] [], [])) := by
  have h0 : convertBlock bm (fuel + 1) (encodeBlockComp c) =
      (match getElementName (encodeBlockComp c) with
       | none => encodeBlockComp c
       | some elementName =>
         if elementName = "" then encodeBlockComp c
         else
           (fun st : Node × List (String × String) =>
             if st.2.length > 0 then setAttr st.1 "style" (styleAttrValue st.2)
             else st.1)
             (((childNodes (encodeBlockComp c)).filter
                 (fun x => tagOf x = "div")).foldl
               (fun st row => processBlockRow bm fuel st row)
               (Node.elem (jsLower elementName) [] [], []))) := rfl
  have hrows : (childNodes (encodeBlockComp c)).filter
      (fun x => tagOf x = "div") =
      Node.elem "div" [] [Node.elem "div" [] [Node.text "element-name"],
        Node.elem "div" [] [Node.text c.name]] ::
        c.rows.map encodeBlockRow := by
    show Node.elem "div" [] [Node.elem "div" [] [Node.text "element-name"],
        Node.elem "div" [] [Node.text c.name]] ::
      (c.rows.map encodeBlockRow).filter (fun x => tagOf x = "div") = _
    rw [filter_div_map_encodeBlockRow]
  rw [h0]
  simp only [getElementName_encodeBlockComp, if_neg hname, hrows,
    List.foldl_cons, processBlockRow_nameRow]

theorem descendants_encodeTableRow_plain (r : LRow) (hr : rowPlain r = true) :
    (descendants (encodeTableRow r)).filter (fun d => tagOf d = "tr") = [] := by
  rcases r with ⟨lab, content⟩
  rcases lab with _ | l
  · simp [rowPlain] at hr
  rcases content with _ | ⟨c0, rest⟩
  · simp [rowPlain] at hr
  rcases c0 with s | t
  · rcases rest with _ | _
    · rfl
    · simp [rowPlain] at hr
  · simp [rowPlain] at hr

theorem encodeTableRow_tag (r : LRow) : tagOf (encodeTableRow r) = "tr" := by
  rcases r with ⟨_ | l, cs⟩ <;> rfl

theorem filter_tr_descList_map : ∀ rs : List LRow, rs.all rowPlain = true →
    (descendantsList (rs.map encodeTableRow)).filter
        (fun d => tagOf d = "tr") =
      rs.map encodeTableRow
  | [], _ => rfl
  | r :: rs, hall => by
    simp only [List.all_cons, Bool.and_eq_true] at hall
    simp only [List.map_cons, descendantsList, List.filter_cons,
      encodeTableRow_tag, decide_True, if_true, List.filter_append,
      descendants_encodeTableRow_plain r hall.1,
      filter_tr_descList_map rs hall.2, List.nil_append,
      List.singleton_append]

theorem qsaTr_encodeTableComp (c : LComp) (hrows : c.rows.all rowPlain = true) :
    querySelectorAllTag "tr" (encodeTableComp c) =
      Node.elem "tr" []
          [Node.elem "td" [("colspan", "2")] [Node.text "experience-element"]] ::
        Node.elem "tr" [] [Node.elem "td" [] [Node.text "element-name"],
          Node.elem "td" [] [Node.text c.name]] ::
        c.rows.map encodeTableRow := by
  show (descendantsList (Node.elem "tr" []
      [Node.elem "td" [("colspan", "2")] [Node.text "experience-element"]] ::
    Node.elem "tr" [] [Node.elem "td" [] [Node.text "element-name"],
      Node.elem "td" [] [Node.text c.name]] ::
    c.rows.map encodeTableRow)).filter (fun d => tagOf d = "tr") = _
  simp only [descendantsList, List.filter_cons, List.filter_append]
  rw [filter_tr_descList_map c.rows hrows]
  rfl

theorem getElementNameFromTable_encodeTableComp (c : LComp)
    (hrows : c.rows.all rowPlain = true) :
    getElementNameFromTable (encodeTableComp c) = some (jsTrim c.name) := by
  rw [getElementNameFromTable, qsaTr_encodeTableComp c hrows]
  exact congrArg some (jsTrim_textContent_cell "td" [] c.name)

theorem processTableRow_header (tm : List (String × Node)) (fuel : Nat)
    (st : Node × List (String × String)) :
    processTableRow tm fuel st (Node.elem "tr" []
      [Node.elem "td" [("colspan", "2")] [Node.text "experience-element"]]) =
      st := by
  cases fuel <;> rfl

theorem processTableRow_nameTr (tm : List (String × Node)) (fuel : Nat)
    (st : Node × List (String × String)) (name : String) :
    processTableRow tm fuel st (Node.elem "tr" []
      [Node.elem "td" [] [Node.text "element-name"],
       Node.elem "td" [] [Node.text name]]) = st := by
  cases fuel <;> rfl

theorem convertTable_encodeTableComp (tm : List (String × Node)) (fuel : Nat)
    (c : LComp) (hname : jsTrim c.name ≠ "")
    (hrows : c.rows.all rowPlain = true) :
    convertTable tm (fuel + 1) (encodeTableComp c) =
      some ((fun st : Node × List (String × String) =>
        if st.2.length > 0 then setAttr st.1 "style" (styleAttrValue st.2)
        else st.1)
        ((c.rows.map encodeTableRow).foldl
          (fun st row => processTableRow tm fuel st row)
          (Node.elem (jsLower (jsTrim c.name)) [] [], []))) := by
  simp only [convertTable, getElementNameFromTable_encodeTableComp c hrows,
    if_neg hname, qsaTr_encodeTableComp c hrows, List.foldl_cons,
    processTableRow_header, processTableRow_nameTr]

/-- C1 (amended): on the fragment where the two surface encodings express the
same row classification — components whose rows are all labeled rows with
plain single-text content (attribute rows and style rows, no reference-only
text) — the block encoding and the table encoding of the same logical
component convert to identical output trees.  (Outside this fragment the two
pipelines genuinely diverge; see the counterexample.) -/
theorem C1_encoding_equivalence (bm tm : List (String × Node)) (fuel : Nat)
    (c : LComp) (hname : jsTrim c.name ≠ "")
    (hrows : c.rows.all rowPlain = true) :
    convertTable tm (fuel + 1) (encodeTableComp c) =
      some (convertBlock bm (fuel + 1) (encodeBlockComp c)) := by
  rw [convertTable_encodeTableComp tm fuel c hname hrows,
    convertBlock_encodeBlockComp bm fuel c hname,
    encode_rows_fold bm tm fuel c.rows _ hrows]

/-- C1 counterexample: the same logical component — one `foo` labeled row
whose value is a paragraph-wrapped text — converts to an attribute in the
block pipeline but to a slotted span child in the table pipeline: the two
encodings are not byte-for-byte equivalent. -/
theorem C1_counterexample :
    convertBlock (buildBlockMap [encodeBlockComp c1cexComp]) 5
        (encodeBlockComp c1cexComp) =
      Node.elem "x-card" [("foo", "bar")] [] ∧
    convertTable (buildTableMap [encodeTableComp c1cexComp]) 5
        (encodeTableComp c1cexComp) =
      some (Node.elem "x-card" []
        [Node.elem "span" [("slot", "foo")]
          [Node.elem "p" [] [Node.text "bar"]]]) ∧
    convertTable (buildTableMap [encodeTableComp c1cexComp]) 5
        (encodeTableComp c1cexComp) ≠
      some (convertBlock (buildBlockMap [encodeBlockComp c1cexComp]) 5
        (encodeBlockComp c1cexComp)) := by decide

/-- Witness for C1: a concrete component with a style row and two plain
attribute rows converts identically through both encodings. -/
theorem C1_witness :
    convertTable (buildTableMap [encodeTableComp c1okComp]) 4
        (encodeTableComp c1okComp) =
      some (convertBlock (buildBlockMap [encodeBlockComp c1okComp]) 4
        (encodeBlockComp c1okComp)) :=
  C1_encoding_equivalence (buildBlockMap [encodeBlockComp c1okComp])
    (buildTableMap [encodeTableComp c1okComp]) 3 c1okComp (by decide)
    (by decide)

/-- Witness for C10 at concrete components: converting the nameless block is
the identity, a singleton nameless block selected as root is the last block,
and the nameless block is outside the unreferenced set. -/
theorem C10_witness :
    convertBlock [] 7 c2Nameless = c2Nameless ∧
    [c2Nameless].getLast? = some c2Nameless ∧
    c2Nameless ∉ unreferencedBy getElementName [c2Named, c2Nameless] :=
  ⟨C10_nameless_component_isolation.2.2.2 [] 7 c2Nameless (by decide),
   C10_nameless_component_isolation.2.2.1 [c2Nameless] c2Nameless (by decide)
     (by decide),
   C10_nameless_component_isolation.2.1 [c2Named, c2Nameless] c2Nameless
     (by decide)⟩

end FromEds
